import Mathlib

/-!
# changedir: the installation engine

A shallow embedding of `install/file.go`, `install_common.go` and the prompt
layer of `prompt.go`, with the part of the operating system they talk to
(a tree-shaped filesystem, a scripted keyboard) made explicit.

Conventions of the embedding

* a Go `string` is a list of code points (`List Char`), a `[]byte` is a list
  of byte values (`List Nat`), and `[]byte(s)` is the UTF-8 encoding;
* a path is the list of its components below the root (absolute and clean),
  so `filepath.Dir` drops the last component;
* the filesystem is a tree of regular files and directories; a directory
  carries its permission bits, of which the owner's search bit is read (the
  process owns every node, or is the superuser), and the device accepts a
  bounded number of bytes, so a write can stop short with `ENOSPC`; symbolic
  links and the permission bits of regular files are not represented;
* functions that mutate their receiver return the new value, and functions
  that may leave a partial effect behind return the state together with an
  optional error.
-/

namespace Changedir

/-! ## Strings and bytes -/

/-- Go `unicode.IsSpace`: the Latin-1 spaces and the code points with the
White_Space property. -/
def isSpace (c : Char) : Bool :=
  let n := c.toNat
  n == 0x20 || (0x09 ≤ n && n ≤ 0x0D) || n == 0x85 || n == 0xA0 || n == 0x1680 ||
  (0x2000 ≤ n && n ≤ 0x200A) || n == 0x2028 || n == 0x2029 || n == 0x202F ||
  n == 0x205F || n == 0x3000

/-- Go `strings.TrimLeftFunc(s, unicode.IsSpace)`. -/
def trimLeft : List Char → List Char
  | [] => []
  | c :: cs => if isSpace c then trimLeft cs else c :: cs

/-- Go `strings.TrimRightFunc(s, unicode.IsSpace)`. -/
def trimRight (s : List Char) : List Char :=
  (trimLeft s.reverse).reverse

/-- Go `strings.TrimSpace`. -/
def TrimSpace (s : List Char) : List Char :=
  trimRight (trimLeft s)

/-- UTF-8 encoding of one code point. -/
def encodeRune (c : Char) : List Nat :=
  let n := c.toNat
  if n < 0x80 then [n]
  else if n < 0x800 then [0xC0 + n / 64, 0x80 + n % 64]
  else if n < 0x10000 then [0xE0 + n / 4096, 0x80 + n / 64 % 64, 0x80 + n % 64]
  else [0xF0 + n / 262144, 0x80 + n / 4096 % 64, 0x80 + n / 64 % 64, 0x80 + n % 64]

/-- Go `[]byte(s)`. -/
def toBytes : List Char → List Nat
  | [] => []
  | c :: cs => encodeRune c ++ toBytes cs

/-- Whether `sub` is a prefix of `data`, byte for byte. -/
def hasPrefix : List Nat → List Nat → Bool
  | _, [] => true
  | [], _ :: _ => false
  | d :: ds, s :: ss => d == s && hasPrefix ds ss

/-- Go `bytes.Contains(data, sub)`. -/
def bytesContains : List Nat → List Nat → Bool
  | [], sub => hasPrefix [] sub
  | d :: ds, sub => hasPrefix (d :: ds) sub || bytesContains ds sub

/-- Go `bytes.Equal`. -/
def bytesEqual (a b : List Nat) : Bool := decide (a = b)

/-! ## The filesystem -/

/-- The error numbers the model can produce. -/
inductive Errno where
  | ENOENT
  | ENOTDIR
  | EISDIR
  | EACCES
  | ENOSPC
  deriving DecidableEq, Repr

deriving instance DecidableEq for Except

/-- Go `os.IsNotExist`. -/
def isNotExist (e : Errno) : Bool := decide (e = Errno.ENOENT)

/-- A filesystem node: a regular file with its bytes, or a directory with
its permission bits and its entries (the first entry of a name is the live
one). -/
inductive Node where
  | file (data : List Nat)
  | dir (perm : Nat) (entries : List (String × Node))

/-- The entries of a directory. -/
abbrev Entries := List (String × Node)

/-- A path: the components below the root. -/
abbrev Path := List String

/-- A filesystem: the entries of its root directory, whether the process is
the superuser (who passes every permission check), and the number of bytes
the device still accepts (`none`: no limit). -/
structure FS where
  root : Entries
  superuser : Bool
  space : Option Nat

/-- Whether the process may look names up in a directory with these
permission bits: the owner's search bit, octal 0100. -/
def searchable (superuser : Bool) (perm : Nat) : Bool :=
  superuser || perm / 64 % 2 == 1

/-- The node a name denotes in a directory. -/
def lookupEntry (c : String) : Entries → Option Node
  | [] => none
  | (k, n) :: es => if k = c then some n else lookupEntry c es

/-- Bind a name in a directory, replacing the live entry when there is one. -/
def setEntry (c : String) (n : Node) : Entries → Entries
  | [] => [(c, n)]
  | (k, m) :: es => if k = c then (c, n) :: es else (k, m) :: setEntry c n es

/-- Path resolution below a directory the process may search. -/
def statAt (su : Bool) : Entries → Path → Except Errno Node
  | es, [] => .ok (.dir 493 es)
  | es, [c] =>
    match lookupEntry c es with
    | none => .error .ENOENT
    | some n => .ok n
  | es, c :: c2 :: rest =>
    match lookupEntry c es with
    | none => .error .ENOENT
    | some (.file _) => .error .ENOTDIR
    | some (.dir perm sub) =>
      if searchable su perm then statAt su sub (c2 :: rest) else .error .EACCES

/-- Go `os.Stat`. -/
def stat (fs : FS) (p : Path) : Except Errno Node := statAt fs.superuser fs.root p

/-- Go `os.ReadFile`. -/
def readFile (fs : FS) (p : Path) : Except Errno (List Nat) :=
  match stat fs p with
  | .error e => .error e
  | .ok (.file d) => .ok d
  | .ok (.dir _ _) => .error .EISDIR

/-- Resolve a path to a regular file and replace its bytes by `g` of the
bytes it holds (`none` when the name is free in its directory). -/
def updateFileAt (su : Bool) (g : Option (List Nat) → Except Errno (List Nat)) :
    Entries → Path → Except Errno Entries
  | _, [] => .error .EISDIR
  | es, [c] =>
    match lookupEntry c es with
    | some (.dir _ _) => .error .EISDIR
    | some (.file d) =>
      match g (some d) with
      | .error e => .error e
      | .ok d' => .ok (setEntry c (.file d') es)
    | none =>
      match g none with
      | .error e => .error e
      | .ok d' => .ok (setEntry c (.file d') es)
  | es, c :: c2 :: rest =>
    match lookupEntry c es with
    | none => .error .ENOENT
    | some (.file _) => .error .ENOTDIR
    | some (.dir perm sub) =>
      if searchable su perm then
        match updateFileAt su g sub (c2 :: rest) with
        | .error e => .error e
        | .ok sub' => .ok (setEntry c (.dir perm sub') es)
      else .error .EACCES

/-- Go `os.OpenFile(path, os.O_WRONLY|os.O_CREATE|os.O_TRUNC, 0644)`: the file
is created or emptied. -/
def openTrunc (fs : FS) (p : Path) : Except Errno FS :=
  match updateFileAt fs.superuser (fun _ => .ok []) fs.root p with
  | .error e => .error e
  | .ok r => .ok { fs with root := r }

/-- Go `os.OpenFile(path, os.O_APPEND|os.O_RDWR, 0644)`: the file must exist. -/
def openAppend (fs : FS) (p : Path) : Except Errno Unit :=
  match stat fs p with
  | .error e => .error e
  | .ok (.file _) => .ok ()
  | .ok (.dir _ _) => .error .EISDIR

/-- Go `(*os.File).Write` on a handle whose offset is the end of the file:
the bytes the device accepts are appended, and `ENOSPC` is returned when it
does not accept them all. -/
def writeBytes (fs : FS) (p : Path) (data : List Nat) : FS × Option Errno :=
  let n : Nat :=
    match fs.space with
    | none => data.length
    | some k => min k data.length
  match updateFileAt fs.superuser (fun o =>
      match o with
      | none => .error .ENOENT
      | some d => .ok (d ++ data.take n)) fs.root p with
  | .error e => (fs, some e)
  | .ok r =>
    ({ root := r, superuser := fs.superuser, space := fs.space.map (fun k => k - n) },
      if n < data.length then some .ENOSPC else none)

/-- Go `os.WriteFile(path, data, 0644)`: open with truncation, then write. -/
def writeFile (fs : FS) (p : Path) (data : List Nat) : FS × Option Errno :=
  match openTrunc fs p with
  | .error e => (fs, some e)
  | .ok fs1 => writeBytes fs1 p data

/-- Go `os.MkdirAll` below a directory the process may search: existing
directories are kept, missing ones are created with `perm`, a regular file on
the way is `ENOTDIR`, and a directory that may not be searched stops the walk
with `EACCES`, the directories made so far staying. The bits a umask clears
are not among those the model reads when `perm` is 0644. -/
def mkdirAllAt (su : Bool) (perm : Nat) : Entries → Path → Entries × Option Errno
  | es, [] => (es, none)
  | es, [c] =>
    match lookupEntry c es with
    | some (.file _) => (es, some .ENOTDIR)
    | some (.dir _ _) => (es, none)
    | none => (setEntry c (.dir perm []) es, none)
  | es, c :: c2 :: rest =>
    match lookupEntry c es with
    | some (.file _) => (es, some .ENOTDIR)
    | some (.dir m sub) =>
      if searchable su m then
        match mkdirAllAt su perm sub (c2 :: rest) with
        | (sub', e) => (setEntry c (.dir m sub') es, e)
      else (es, some .EACCES)
    | none =>
      if searchable su perm then
        match mkdirAllAt su perm [] (c2 :: rest) with
        | (sub', e) => (setEntry c (.dir perm sub') es, e)
      else (setEntry c (.dir perm []) es, some .EACCES)

/-- Go `os.MkdirAll(path, perm)`. -/
def mkdirAll (fs : FS) (p : Path) (perm : Nat) : FS × Option Errno :=
  match mkdirAllAt fs.superuser perm fs.root p with
  | (r, e) => ({ fs with root := r }, e)

/-- Go `filepath.Dir` on a clean absolute path. -/
def pathDir (p : Path) : Path := p.dropLast

/-! ## `install/file.go` -/

/-- Go `type Action int`. -/
abbrev Action := Int

/-- The constant `Action_Write`. -/
def Action_Write : Action := 0

/-- The constant `Action_Append`. -/
def Action_Append : Action := 1

/-- Go `type File struct`. -/
structure File where
  Exists : Bool
  Installed : Bool
  Action : Action
  Path : Path
  Content : List Char
  ContentData : List Nat

/-- Go `(*File).Apply`: the filesystem it leaves and the error it returns.
The mode `0644` is 420. -/
def File.Apply (fs : FS) (f : File) : FS × Option Errno :=
  if f.Installed then (fs, none)
  else
    match mkdirAll fs (pathDir f.Path) 420 with
    | (fs1, some e) => (fs1, some e)
    | (fs1, none) =>
      if f.Action = Action_Append then
        if f.Exists then
          match openAppend fs1 f.Path with
          | .error e => (fs1, some e)
          | .ok _ =>
            match writeBytes fs1 f.Path [10] with
            | (fs2, some e) => (fs2, some e)
            | (fs2, none) => writeBytes fs2 f.Path f.ContentData
        else writeFile fs1 f.Path f.ContentData
      else if f.Action = Action_Write then writeFile fs1 f.Path f.ContentData
      else (fs1, none)

/-- Go `install.Apply`. -/
def Apply (fs : FS) : List File → FS × Option Errno
  | [] => (fs, none)
  | f :: rest =>
    match f.Apply fs with
    | (fs1, some e) => (fs1, some e)
    | (fs1, none) => Apply fs1 rest

/-- Go `install.IsInstalled`. -/
def IsInstalled : List File → Bool
  | [] => true
  | f :: rest => if !f.Installed then false else IsInstalled rest

/-- The string `strings.TrimSpace(file.Content) + "\n"` that `install.Prepare`
converts to `ContentData`. -/
def normalizedContent (content : List Char) : List Char :=
  TrimSpace content ++ ['\n']

/-- The body of the loop of `install.Prepare` for one element: the element as
the iteration leaves it, and the error on which `Prepare` returns. -/
def prepareFile (fs : FS) (file : File) : File × Option Errno :=
  let file1 : File := { file with ContentData := toBytes (normalizedContent file.Content) }
  let statErr : Option Errno :=
    match stat fs file1.Path with
    | .ok _ => none
    | .error e => some e
  let file2 : File := { file1 with Exists := true }
  match statErr with
  | some e =>
    if isNotExist e then
      let file3 : File := { file2 with Exists := false }
      ({ file3 with Content := TrimSpace file3.Content }, none)
    else (file2, some e)
  | none =>
    match readFile fs file2.Path with
    | .error e => (file2, some e)
    | .ok data =>
      let file3 : File :=
        if file2.Action = Action_Write then
          { file2 with Installed := bytesEqual data file2.ContentData }
        else if file2.Action = Action_Append then
          { file2 with Installed := bytesContains data file2.ContentData }
        else file2
      ({ file3 with Content := TrimSpace file3.Content }, none)

/-- Go `install.Prepare`: the slice as the call leaves it, and its error. -/
def Prepare (fs : FS) : List File → List File × Option Errno
  | [] => ([], none)
  | f :: rest =>
    match prepareFile fs f with
    | (f1, some e) => (f1 :: rest, some e)
    | (f1, none) =>
      match Prepare fs rest with
      | (rest1, r) => (f1 :: rest1, r)

/-! ## `prompt.go` and `install_common.go`

The keyboard is the list of bytes still to be read from standard input.
Switching the terminal mode and writing to standard output succeed. Bytes
are written as numbers: `y` 121, `Y` 89, `n` 110, `N` 78, `?` 63, `s` 115,
`S` 83, line feed 10, carriage return 13. -/

/-- The errors that reach `fatal`. -/
inductive Err where
  | io (e : Errno)
  | eof
  | invalidInitial
  | invalidDetails
  | ErrInvalidYesNoResponse
  | terminal
  | write
  deriving DecidableEq, Repr

/-- Go `askByte`: the pair `(result, err)` it returns and the input left.
The deferred function runs the response handler on `result` on every path,
and its error replaces the one being returned. -/
def askByte (input : List Nat) (dflt : Nat) (onResponse : Nat → Option Err) :
    (Nat × Option Err) × List Nat :=
  match input with
  | [] =>
    match onResponse 0 with
    | some lerr => ((0, some lerr), [])
    | none => ((0, some Err.eof), [])
  | b :: rest =>
    let result := if b = 10 ∨ b = 13 then dflt else b
    match onResponse result with
    | some lerr => ((result, some lerr), rest)
    | none => ((result, none), rest)

/-- The response handler `askYesNo` passes to `askByte`. -/
def yesNoResponse (v : Nat) : Option Err :=
  if v = 121 ∨ v = 89 then none
  else if v = 110 ∨ v = 78 then none
  else some Err.ErrInvalidYesNoResponse

/-- Go `askYesNo`: `none` stands for `panic("unreachable")`, otherwise the
pair `(result, err)`. -/
def askYesNo (input : List Nat) (dflt : Bool) : Option (Bool × Option Err) × List Nat :=
  let defByte : Nat := if !dflt then 110 else 121
  match askByte input defByte yesNoResponse with
  | ((_, some err), rest) => (some (false, some err), rest)
  | ((b, none), rest) =>
    if b = 121 ∨ b = 89 then (some (true, none), rest)
    else if b = 110 ∨ b = 78 then (some (false, none), rest)
    else (none, rest)

/-- The response handler of the first prompt of `doInstall`. -/
def initialResponse (v : Nat) : Option Err :=
  if v = 121 ∨ v = 89 then none
  else if v = 110 ∨ v = 78 then none
  else if v = 63 then none
  else some Err.invalidInitial

/-- The response handler of the details prompt of `doInstall`. -/
def detailsResponse (v : Nat) : Option Err :=
  if v = 121 ∨ v = 89 then none
  else if v = 110 ∨ v = 78 then none
  else if v = 115 ∨ v = 83 then none
  else some Err.invalidDetails

/-- How a run of `doInstall` ends: the filesystem, the exit status (0 on
return, 1 through `fatal`, 2 on a panic) and the input not read. -/
structure Outcome where
  fs : FS
  status : Nat
  unread : List Nat

/-- The statement `fatal(install.Apply(files))` followed by a return. -/
def fatalApply (fs : FS) (files : List File) (unread : List Nat) : Outcome :=
  match Apply fs files with
  | (fs1, some _) => ⟨fs1, 1, unread⟩
  | (fs1, none) => ⟨fs1, 0, unread⟩

/-- The step-by-step loop of `doInstall`. -/
def stepByStep (fs : FS) : List File → List Nat → Outcome
  | [], input => ⟨fs, 0, input⟩
  | f :: rest, input =>
    match askYesNo input false with
    | (none, input1) => ⟨fs, 2, input1⟩
    | (some (_, some _), input1) => ⟨fs, 1, input1⟩
    | (some (true, none), input1) =>
      match Apply fs [f] with
      | (fs1, some _) => ⟨fs1, 1, input1⟩
      | (fs1, none) => stepByStep fs1 rest input1
    | (some (false, none), input1) => stepByStep fs rest input1

/-- Go `doInstall`. -/
def doInstall (fs : FS) (files : List File) (input : List Nat) : Outcome :=
  match Prepare fs files with
  | (_, some _) => ⟨fs, 1, input⟩
  | (files1, none) =>
    if IsInstalled files1 then ⟨fs, 0, input⟩
    else
      match askByte input 110 initialResponse with
      | ((_, some _), rest) => ⟨fs, 1, rest⟩
      | ((b, none), rest) =>
        if b = 121 ∨ b = 89 then fatalApply fs files1 rest
        else if b = 110 ∨ b = 78 then ⟨fs, 0, rest⟩
        else if b = 63 then
          match askByte rest 110 detailsResponse with
          | ((_, some _), rest1) => ⟨fs, 1, rest1⟩
          | ((b1, none), rest1) =>
            if b1 = 121 ∨ b1 = 89 then fatalApply fs files1 rest1
            else if b1 = 110 ∨ b1 = 78 then ⟨fs, 0, rest1⟩
            else if b1 = 115 ∨ b1 = 83 then stepByStep fs files1 rest1
            else ⟨fs, 0, rest1⟩
        else ⟨fs, 0, rest⟩

/-! ## Sample states -/

/-- A filesystem whose only file `/tmp/b` holds `other`, `line` on two lines. -/
def fsOtherLine : FS :=
  { root := [("tmp", .dir 493 [("b", .file (toBytes "other\nline\n".toList))])],
    superuser := false, space := none }

/-- The spec `{Action: Append, Path: "/tmp/b", Content: "line"}`. -/
def specAppendLine : File :=
  { Exists := false, Installed := false, Action := Action_Append,
    Path := ["tmp", "b"], Content := "line".toList, ContentData := [] }

/-- The spec `{Action: Write, Path: "/tmp/b", Content: "line"}`. -/
def specWriteLine : File :=
  { Exists := false, Installed := false, Action := Action_Write,
    Path := ["tmp", "b"], Content := "line".toList, ContentData := [] }

/-! ## Vocabulary of the normalized-content invariant -/

/-- The text before the first line feed. -/
def firstLine (text : List Char) : List Char :=
  text.takeWhile (fun c => c != '\n')

/-- The last line of a text, its final character (the closing line feed)
left out. -/
def lastLine (text : List Char) : List Char :=
  (text.dropLast.reverse.takeWhile (fun c => c != '\n')).reverse

/-- Whether a line holds a character that is not a space. -/
def hasNonSpace (line : List Char) : Bool :=
  line.any (fun c => !isSpace c)

/-- The bytes end with a line feed that no other line feed precedes. -/
def endsWithOneNewline (bytes : List Nat) : Prop :=
  bytes.getLast? = some 10 ∧ bytes.dropLast.getLast? ≠ some 10

/-- The invariant the data model states for `normalizedContent`: one final
line feed, and a first and a last line that are not blank. -/
def contentInvariant (text : List Char) : Prop :=
  endsWithOneNewline (toBytes text) ∧
    hasNonSpace (firstLine text) = true ∧ hasNonSpace (lastLine text) = true

/-- A spec with empty content. -/
def specEmpty : File :=
  { Exists := false, Installed := false, Action := Action_Write,
    Path := ["tmp", "a"], Content := [], ContentData := [] }

/-- A filesystem with an empty directory `/tmp`. -/
def fsTmp : FS := { root := [("tmp", .dir 493 [])], superuser := false, space := none }

/-- The spec `{Action: Write, Path: "/tmp/a", Content: "  hi  \n\n"}`. -/
def specHi : File :=
  { Exists := false, Installed := false, Action := Action_Write,
    Path := ["tmp", "a"], Content := "  hi  \n\n".toList, ContentData := [] }

/-- The spec `specHi` as a preparation pass leaves it when `/tmp/a` holds
`hi` and a line feed: the flags are set. -/
def specHiInstalled : File :=
  { Exists := true, Installed := true, Action := Action_Write,
    Path := ["tmp", "a"], Content := "hi".toList, ContentData := [104, 105, 10] }

/-- The spec `{Action: Append, Path: "/tmp/b", Content: "bind"}`. -/
def specAppendBind : File :=
  { Exists := false, Installed := false, Action := Action_Append,
    Path := ["tmp", "b"], Content := "bind".toList, ContentData := [] }

/-- The spec `{Action: Append, Path: "/tmp/c", Content: "bind"}`. -/
def specAppendFresh : File :=
  { Exists := false, Installed := false, Action := Action_Append,
    Path := ["tmp", "c"], Content := "bind".toList, ContentData := [] }

/-! ## Reference semantics of a batch -/

/-- The filesystem obtained by running `File.Apply` on each spec alone, one
after the other in the order of the list. -/
def applyInOrder (fs : FS) : List File → FS
  | [] => fs
  | f :: rest => applyInOrder (f.Apply fs).1 rest

/-- Whether each `File.Apply` of that run returns no error. -/
def succeedInOrder (fs : FS) : List File → Bool
  | [] => true
  | f :: rest => (f.Apply fs).2.isNone && succeedInOrder (f.Apply fs).1 rest

/-- The spec `{Action: Write, Path: "/tmp/a/x", Content: "v"}`, whose parent
is the target of `specHi`. -/
def specBelowHi : File :=
  { Exists := false, Installed := false, Action := Action_Write,
    Path := ["tmp", "a", "x"], Content := "v".toList, ContentData := [] }

/-- The specs of a batch answered `y` or `Y`, one answer per spec, in the
order of the batch. -/
def accepted : List File → List Nat → List File
  | f :: files, a :: answers =>
    if a = 121 ∨ a = 89 then f :: accepted files answers else accepted files answers
  | _, _ => []

/-! ## `prompt.go` with a terminal that can fail

The prompt functions once more, with every system call of `askByte` able to
return an error. `Err.terminal` is an error of `term.MakeRaw` or
`term.Restore`, `Err.write` one of a write to standard output. -/

/-- The errors, if any, that the system calls of one prompt return: entering
raw mode, restoring the mode, writing the label, writing the hint, and the
write of the acknowledgment in the response handler. -/
structure Tty where
  makeRaw : Option Err
  restore : Option Err
  writeText : Option Err
  writeHint : Option Err
  writeReply : Option Err

/-- The terminal on which every call succeeds. -/
def Tty.ok : Tty :=
  { makeRaw := none, restore := none, writeText := none, writeHint := none,
    writeReply := none }

/-- The body of `askByte` after `term.MakeRaw` succeeded, up to its `return`:
the named results `(result, err)` it sets and the input left. -/
def askByteBody (t : Tty) (input : List Nat) (hint : List Char) (dflt : Nat) :
    (Nat × Option Err) × List Nat :=
  match t.writeText with
  | some e => ((0, some e), input)
  | none =>
    match (if hint.length > 0 then t.writeHint else none) with
    | some e => ((0, some e), input)
    | none =>
      match input with
      | [] => ((0, some Err.eof), [])
      | b :: rest => if b = 10 ∨ b = 13 then ((dflt, none), rest) else ((b, none), rest)

/-- Go `askByte` on a terminal that can fail. The deferred function restores
the mode, then runs the response handler on `result`; an error of either
replaces `err`. -/
def askByteTty (t : Tty) (input : List Nat) (hint : List Char) (dflt : Nat)
    (onResponse : Nat → Option Err) : (Nat × Option Err) × List Nat :=
  match t.makeRaw with
  | some e => ((0, some e), input)
  | none =>
    match askByteBody t input hint dflt with
    | ((result, err), rest) =>
      match t.restore with
      | some lerr => ((result, some lerr), rest)
      | none =>
        match onResponse result with
        | some lerr => ((result, some lerr), rest)
        | none => ((result, err), rest)

/-- The response handler of `askYesNo`, its write able to fail. -/
def yesNoResponseTty (t : Tty) (v : Nat) : Option Err :=
  if v = 121 ∨ v = 89 then t.writeReply
  else if v = 110 ∨ v = 78 then t.writeReply
  else some Err.ErrInvalidYesNoResponse

/-- Go `askYesNo` on a terminal that can fail: `none` stands for
`panic("unreachable")`, otherwise the pair `(result, err)`. -/
def askYesNoTty (t : Tty) (input : List Nat) (dflt : Bool) :
    Option (Bool × Option Err) × List Nat :=
  let defByte : Nat := if !dflt then 110 else 121
  let hint : List Char := if !dflt then " [y/N] ".toList else " [Y/n] ".toList
  match askByteTty t input hint defByte (yesNoResponseTty t) with
  | ((_, some err), rest) => (some (false, some err), rest)
  | ((b, none), rest) =>
    if b = 121 ∨ b = 89 then (some (true, none), rest)
    else if b = 110 ∨ b = 78 then (some (false, none), rest)
    else (none, rest)

/-- The byte a prompt with default `dflt` acts on when it reads `b`. -/
def effectiveByte (dflt : Bool) (b : Nat) : Nat :=
  if b = 10 ∨ b = 13 then (if dflt then 121 else 110) else b

/-- A terminal whose writes to standard output fail. -/
def ttyWriteFails : Tty :=
  { makeRaw := none, restore := none, writeText := some Err.write,
    writeHint := some Err.write, writeReply := some Err.write }

/-! ## The boxed preview (`install/file.go`)

A string that went through the colour library is a list of glyphs: the runes
of the text, and the escape sequences the library puts around a coloured
label when `color.NoColor` is false. The global `color.NoColor` is the
argument `noColor`; `withoutColor` runs its callback with `true` and restores
the flag. The path of a spec is printed through `%q`, whose quoting function
is the parameter `quote`. The output of a print function is the list of the
lines it prints, each without its final line feed. -/

/-- One item of coloured text: a rune, or an escape sequence of the colour
library. -/
inductive Glyph where
  | rune (c : Char)
  | markup (seq : List Char)
  deriving DecidableEq

/-- Text as the print functions handle it. -/
abbrev Text := List Glyph

/-- A Go string without markup. -/
def plain (s : List Char) : Text := s.map Glyph.rune

/-- Go `utf8.RuneCountInString`. -/
def RuneCountInString : Text → Nat
  | [] => 0
  | Glyph.rune _ :: t => 1 + RuneCountInString t
  | Glyph.markup seq :: t => seq.length + RuneCountInString t

/-- The number of visible characters: the runes that are not markup. -/
def visibleCount : Text → Nat
  | [] => 0
  | Glyph.rune _ :: t => 1 + visibleCount t
  | Glyph.markup _ :: t => visibleCount t

/-- The colour library on a label: `color.GreenString` for code `32`,
`color.YellowString` for `33`, `color.RedString` for `31`. -/
def colorString (noColor : Bool) (code : List Char) (s : List Char) : Text :=
  if noColor then plain s
  else
    [Glyph.markup ([Char.ofNat 27, '['] ++ code ++ ['m'])] ++ plain s ++
      [Glyph.markup [Char.ofNat 27, '[', '0', 'm']]

/-- The string of a path. -/
def pathString : Path → List Char
  | [] => ['/']
  | c :: cs => (List.map (fun x => '/' :: x.toList) (c :: cs)).flatten

/-- Go `strings.Split(s, "\n")`. -/
def splitLines : List Char → List (List Char)
  | [] => [[]]
  | c :: cs =>
    if c = '\n' then [] :: splitLines cs
    else
      match splitLines cs with
      | [] => [[c]]
      | l :: ls => (c :: l) :: ls

/-- Go `(*File).Summary`. -/
def File.Summary (f : File) (noColor : Bool) (quote : List Char → List Char) : Text :=
  let qpath : Text := plain (' ' :: quote (pathString f.Path))
  if f.Installed then colorString noColor "32".toList "Already installed:".toList ++ qpath
  else if f.Action = Action_Append then
    colorString noColor "33".toList "Append to:".toList ++ qpath
  else if f.Exists then colorString noColor "31".toList "Overwrite:".toList ++ qpath
  else colorString noColor "32".toList "Create:".toList ++ qpath

/-- Go `(*File).maxLen`. -/
def File.maxLen (f : File) (quote : List Char → List Char) : Nat :=
  let n := RuneCountInString (f.Summary true quote)
  let maxLen := if n > 0 then n else 0
  (splitLines f.Content).foldl
    (fun m line => if RuneCountInString (plain line) > m then RuneCountInString (plain line) else m)
    maxLen

/-- Go `padString`: `f` is a closure that reads `color.NoColor`. -/
def padString (noColor : Bool) (f : Bool → Text) (n : Nat) : Text :=
  let s := f true
  f noColor ++ plain (List.replicate (n - RuneCountInString s) ' ')

/-- Go `sep`. -/
def sep (s : List Char) : Nat → List Char
  | 0 => []
  | n + 1 => s ++ sep s n

/-- Go `(*File).printDetails`. -/
def File.printDetails (f : File) (noColor : Bool) (quote : List Char → List Char)
    (maxLen : Nat) : List Text :=
  [plain "║ ".toList ++ padString noColor (fun nc => f.Summary nc quote) maxLen
      ++ plain " ║".toList,
   plain ("╟".toList ++ sep "┄".toList (maxLen + 2) ++ "╢".toList)] ++
  (splitLines f.Content).map (fun line =>
    plain "║ ".toList ++ padString noColor (fun _ => plain line) maxLen ++ plain " ║".toList)

/-- The first loop of `install.PrintDetails`: the common width. -/
def batchMaxLen (quote : List Char → List Char) (files : List File) : Nat :=
  files.foldl (fun m f => if f.maxLen quote > m then f.maxLen quote else m) 0

/-- The second loop of `install.PrintDetails`, from index `i`. -/
def printFilesFrom (noColor : Bool) (quote : List Char → List Char) (maxLen : Nat) :
    Nat → List File → List Text
  | _, [] => []
  | i, f :: rest =>
    (if i ≠ 0 then [plain ("╠".toList ++ sep "═".toList (maxLen + 2) ++ "╣".toList)] else []) ++
      f.printDetails noColor quote maxLen ++ printFilesFrom noColor quote maxLen (i + 1) rest

/-- Go `install.PrintDetails`. -/
def PrintDetails (noColor : Bool) (quote : List Char → List Char) (files : List File) :
    List Text :=
  let maxLen := batchMaxLen quote files
  [plain ("╔".toList ++ sep "═".toList (maxLen + 2) ++ "╗".toList)] ++
    printFilesFrom noColor quote maxLen 0 files ++
    [plain ("╚".toList ++ sep "═".toList (maxLen + 2) ++ "╝".toList)]

/-- A stand-in for the quoting of `%q`: double quotes around the text. -/
def quoteSample (s : List Char) : List Char := ['"'] ++ s ++ ['"']

/-- The text of a line, markup left out. -/
def visibleText : Text → List Char
  | [] => []
  | Glyph.rune c :: t => c :: visibleText t
  | Glyph.markup _ :: t => visibleText t

/-- The batch of the Write spec for `/tmp/a` and the Append spec for
`/tmp/b`, prepared. -/
def sampleBatch : List File :=
  [(prepareFile fsTmp specHi).1, (prepareFile fsOtherLine specAppendBind).1]

/-- A filesystem whose device has room for one more byte: `/tmp/a` holds
`old`, `/tmp/b` holds `other`, `line`. -/
def fsNoSpace : FS :=
  { root := [("tmp", .dir 493 [("a", .file (toBytes "old\n".toList)),
      ("b", .file (toBytes "other\nline\n".toList))])],
    superuser := false, space := some 1 }

/-- The filesystem `fsTmp` seen by the superuser. -/
def fsTmpRoot : FS := { root := [("tmp", .dir 493 [])], superuser := true, space := none }

/-- The spec `{Action: Write, Path: "/tmp/d/x", Content: "v"}`, whose parent
directory is missing. -/
def specBelowNew : File :=
  { Exists := false, Installed := false, Action := Action_Write,
    Path := ["tmp", "d", "x"], Content := "v".toList, ContentData := [] }

/-! # Properties -/

theorem hasPrefix_iff (data sub : List Nat) : hasPrefix data sub = true ↔ sub <+: data := by
  induction data generalizing sub with
  | nil => cases sub <;> simp [hasPrefix]
  | cons d ds ih =>
    cases sub with
    | nil => simp [hasPrefix]
    | cons s ss =>
      simp [hasPrefix, ih, List.cons_prefix_cons]
      intro _; exact eq_comm

theorem bytesContains_iff (data sub : List Nat) : bytesContains data sub = true ↔ sub <:+: data := by
  induction data with
  | nil =>
    simp [bytesContains, hasPrefix_iff]
  | cons d ds ih =>
    simp only [bytesContains, Bool.or_eq_true, hasPrefix_iff, ih]
    rw [List.infix_cons_iff]

theorem readFile_ok_stat {fs : FS} {p : Path} {data : List Nat}
    (h : readFile fs p = .ok data) : stat fs p = .ok (.file data) := by
  unfold readFile at h
  split at h <;> simp_all

theorem prepareFile_of_readable (fs : FS) (f : File) (data : List Nat)
    (h : readFile fs f.Path = .ok data) :
    prepareFile fs f =
      ({ Exists := true,
         Installed :=
           if f.Action = Action_Write then
             bytesEqual data (toBytes (normalizedContent f.Content))
           else if f.Action = Action_Append then
             bytesContains data (toBytes (normalizedContent f.Content))
           else f.Installed,
         Action := f.Action, Path := f.Path, Content := TrimSpace f.Content,
         ContentData := toBytes (normalizedContent f.Content) }, none) := by
  have hs := readFile_ok_stat h
  simp only [prepareFile, hs, h]
  split_ifs <;> rfl

theorem Prepare_ok (fs : FS) (files out : List File) (h : Prepare fs files = (out, none)) :
    out = files.map (fun f => (prepareFile fs f).1) ∧
      ∀ f ∈ files, (prepareFile fs f).2 = none := by
  induction files generalizing out with
  | nil => simp [Prepare] at h; simp [h]
  | cons f rest ih =>
    simp only [Prepare] at h
    rcases hp : prepareFile fs f with ⟨f1, _ | e⟩
    · rw [hp] at h
      rcases hr : Prepare fs rest with ⟨rest1, r⟩
      rw [hr] at h
      simp only [Prod.mk.injEq] at h
      obtain ⟨h1, h2⟩ := h
      subst h2
      obtain ⟨ih1, ih2⟩ := ih rest1 hr
      subst h1
      constructor
      · simp [hp, ih1]
      · intro g hg
        rcases List.mem_cons.mp hg with rfl | hg
        · simp [hp]
        · exact ih2 g hg
    · rw [hp] at h
      simp at h

/-- C1: when `install.Prepare` succeeds on a batch, every spec of it whose
path holds a readable regular file with bytes `data` comes out with
`ContentData` the bytes of `TrimSpace(Content) + "\n"`, and with `Installed`
true exactly when `data` equals `ContentData` (action Write), respectively
exactly when `ContentData` is a contiguous sublist of `data` (action Append). -/
theorem C1_prepare_installed_flag (fs : FS) (files out : List File) (i : Nat) (f : File)
    (data : List Nat) (hP : Prepare fs files = (out, none)) (hf : files[i]? = some f)
    (hr : readFile fs f.Path = .ok data) :
    ∃ g, out[i]? = some g ∧ g.Exists = true ∧
      g.ContentData = toBytes (TrimSpace f.Content ++ ['\n']) ∧
      (f.Action = Action_Write → (g.Installed = true ↔ data = g.ContentData)) ∧
      (f.Action = Action_Append → (g.Installed = true ↔ g.ContentData <:+: data)) := by
  obtain ⟨hout, _⟩ := Prepare_ok fs files out hP
  refine ⟨(prepareFile fs f).1, ?_, ?_⟩
  · rw [hout, List.getElem?_map, hf]; rfl
  · rw [prepareFile_of_readable fs f data hr]
    refine ⟨rfl, rfl, ?_, ?_⟩
    · intro hw
      simp [hw, bytesEqual]
    · intro ha
      have hne : ¬ Action_Append = Action_Write := by decide
      simp [ha, hne, bytesContains_iff]

/-- C1 at the sample batch: over `/tmp/b` holding `other`, `line`, the Append
spec with content `line` is installed and the Write spec with the same
content is not. -/
theorem C1_prepare_installed_flag_witness :
    (Prepare fsOtherLine [specAppendLine, specWriteLine]).1.map File.Installed = [true, false] ∧
    ∃ g, (Prepare fsOtherLine [specAppendLine, specWriteLine]).1[1]? = some g ∧
      g.Exists = true ∧
      g.ContentData = toBytes (TrimSpace specWriteLine.Content ++ ['\n']) ∧
      (specWriteLine.Action = Action_Write →
        (g.Installed = true ↔ toBytes "other\nline\n".toList = g.ContentData)) ∧
      (specWriteLine.Action = Action_Append →
        (g.Installed = true ↔ g.ContentData <:+: toBytes "other\nline\n".toList)) :=
  ⟨by decide,
   C1_prepare_installed_flag fsOtherLine [specAppendLine, specWriteLine]
     (Prepare fsOtherLine [specAppendLine, specWriteLine]).1 1 specWriteLine
     (toBytes "other\nline\n".toList) (by rfl) (by rfl) (by decide)⟩

theorem trimLeft_eq_dropWhile (s : List Char) : trimLeft s = s.dropWhile isSpace := by
  induction s with
  | nil => rfl
  | cons c cs ih =>
    by_cases h : isSpace c = true
    · simp [trimLeft, List.dropWhile, h, ih]
    · simp [trimLeft, List.dropWhile, h]

theorem trimRight_eq_rdropWhile (s : List Char) : trimRight s = s.rdropWhile isSpace := by
  simp [trimRight, List.rdropWhile, trimLeft_eq_dropWhile]

theorem TrimSpace_eq (s : List Char) :
    TrimSpace s = (s.dropWhile isSpace).rdropWhile isSpace := by
  simp [TrimSpace, trimRight_eq_rdropWhile, trimLeft_eq_dropWhile]

theorem dropWhile_head_not (s : List Char) (c : Char) (rest : List Char)
    (h : s.dropWhile isSpace = c :: rest) : isSpace c = false := by
  induction s with
  | nil => simp at h
  | cons d ds ih =>
    by_cases hd : isSpace d = true
    · simp [List.dropWhile, hd] at h
      exact ih h
    · simp [List.dropWhile, hd] at h
      obtain ⟨rfl, _⟩ := h
      simpa using hd

/-- The first character of a trimmed string is not a space. -/
theorem TrimSpace_head_not (s : List Char) (c : Char) (rest : List Char)
    (h : TrimSpace s = c :: rest) : isSpace c = false := by
  rw [TrimSpace_eq] at h
  obtain ⟨more, hm⟩ := List.rdropWhile_prefix isSpace (l := s.dropWhile isSpace)
  rw [h] at hm
  exact dropWhile_head_not s c (rest ++ more) (by simpa using hm.symm)

/-- The last character of a trimmed string is not a space. -/
theorem TrimSpace_last_not (s : List Char) (init : List Char) (c : Char)
    (h : TrimSpace s = init ++ [c]) : isSpace c = false := by
  rw [TrimSpace_eq] at h
  have hne : (s.dropWhile isSpace).rdropWhile isSpace ≠ [] := by simp [h]
  have := List.rdropWhile_last_not isSpace (s.dropWhile isSpace) hne
  simp [h] at this
  exact this

/-- Trimming the normalized content gives the trimmed content back. -/
theorem TrimSpace_normalizedContent (s : List Char) :
    TrimSpace (normalizedContent s) = TrimSpace s := by
  unfold normalizedContent
  rcases ht : TrimSpace s with _ | ⟨c, rest⟩
  · decide
  · have hc := TrimSpace_head_not s c rest ht
    have hl : ∀ hl : c :: rest ≠ [], ¬ isSpace ((c :: rest).getLast hl) = true := by
      intro hl
      obtain ⟨init, hi⟩ : ∃ init, c :: rest = init ++ [(c :: rest).getLast hl] :=
        ⟨(c :: rest).dropLast, (List.dropLast_append_getLast hl).symm⟩
      have := TrimSpace_last_not s init _ (ht.trans hi)
      simp [this]
    have hn : isSpace '\n' = true := by decide
    rw [TrimSpace_eq]
    have h1 : (c :: rest ++ ['\n']).dropWhile isSpace = c :: rest ++ ['\n'] := by
      simp [List.dropWhile, hc]
    rw [h1, List.rdropWhile_concat_pos _ _ _ hn]
    exact List.rdropWhile_eq_self_iff.mpr hl

theorem TrimSpace_idem (s : List Char) : TrimSpace (TrimSpace s) = TrimSpace s := by
  rcases ht : TrimSpace s with _ | ⟨c, rest⟩
  · decide
  · have hc := TrimSpace_head_not s c rest ht
    rw [TrimSpace_eq]
    have h1 : (c :: rest).dropWhile isSpace = c :: rest := by simp [List.dropWhile, hc]
    rw [h1]
    apply List.rdropWhile_eq_self_iff.mpr
    intro hl
    obtain ⟨init, hi⟩ : ∃ init, c :: rest = init ++ [(c :: rest).getLast hl] :=
      ⟨(c :: rest).dropLast, (List.dropLast_append_getLast hl).symm⟩
    have := TrimSpace_last_not s init _ (ht.trans hi)
    simp [this]

theorem prepareFile_ContentData (fs : FS) (f : File) :
    (prepareFile fs f).1.ContentData = toBytes (normalizedContent f.Content) := by
  unfold prepareFile
  simp only
  split
  · split
    · rfl
    · rfl
  · split
    · rfl
    · split_ifs <;> rfl

theorem prepareFile_Content (fs : FS) (f : File) :
    TrimSpace (prepareFile fs f).1.Content = TrimSpace f.Content := by
  unfold prepareFile
  simp only
  split
  · split
    · exact TrimSpace_idem _
    · rfl
  · split
    · rfl
    · split_ifs <;> exact TrimSpace_idem _

/-- C6: the loop body of `install.Prepare` sets `ContentData` to the bytes of
`TrimSpace(Content) + "\n"` on every path; normalizing the normalized text
gives the same text; and preparing a prepared spec again, on any filesystem,
computes the same `ContentData`. -/
theorem C6_normalization_fixed_point (fs fs1 : FS) (f : File) :
    (prepareFile fs f).1.ContentData = toBytes (TrimSpace f.Content ++ ['\n']) ∧
    TrimSpace (TrimSpace f.Content ++ ['\n']) ++ ['\n'] = TrimSpace f.Content ++ ['\n'] ∧
    (prepareFile fs1 (prepareFile fs f).1).1.ContentData = (prepareFile fs f).1.ContentData := by
  refine ⟨prepareFile_ContentData fs f, ?_, ?_⟩
  · have := TrimSpace_normalizedContent f.Content
    unfold normalizedContent at this
    rw [this]
  · rw [prepareFile_ContentData, prepareFile_ContentData]
    unfold normalizedContent
    rw [prepareFile_Content]

theorem toBytes_append (a b : List Char) : toBytes (a ++ b) = toBytes a ++ toBytes b := by
  induction a with
  | nil => rfl
  | cons c cs ih => simp [toBytes, ih]

theorem encodeRune_getLast (c : Char) (h : c.toNat ≠ 10) :
    ∃ init b, encodeRune c = init ++ [b] ∧ b ≠ 10 := by
  unfold encodeRune
  simp only
  split_ifs with h1 h2 h3
  · exact ⟨[], c.toNat, rfl, h⟩
  · exact ⟨[0xC0 + c.toNat / 64], 0x80 + c.toNat % 64, rfl, by omega⟩
  · exact ⟨[0xE0 + c.toNat / 4096, 0x80 + c.toNat / 64 % 64], 0x80 + c.toNat % 64, rfl, by omega⟩
  · exact ⟨[0xF0 + c.toNat / 262144, 0x80 + c.toNat / 4096 % 64, 0x80 + c.toNat / 64 % 64],
      0x80 + c.toNat % 64, rfl, by omega⟩

theorem isSpace_false_ne_newline (c : Char) (h : isSpace c = false) :
    c.toNat ≠ 10 ∧ (c != '\n') = true := by
  have h10 : c.toNat ≠ 10 := by
    intro h10
    simp [isSpace, h10] at h
  refine ⟨h10, ?_⟩
  simp only [bne_iff_ne, ne_eq]
  rintro rfl
  exact h10 (by decide)

theorem TrimSpace_eq_nil_iff (s : List Char) :
    TrimSpace s = [] ↔ ∀ c ∈ s, isSpace c = true := by
  rw [TrimSpace_eq, List.rdropWhile_eq_nil_iff]
  constructor
  · intro h
    rcases hd : s.dropWhile isSpace with _ | ⟨c, rest⟩
    · simpa using hd
    · have := dropWhile_head_not s c rest hd
      have h2 := h c (by simp [hd])
      simp [this] at h2
  · intro h c hc
    exact h c ((List.dropWhile_sublist isSpace).subset hc)

theorem contentInvariant_of_nonblank (s : List Char) (h : ∃ c ∈ s, isSpace c = false) :
    contentInvariant (normalizedContent s) := by
  have hne : TrimSpace s ≠ [] := by
    intro h0
    obtain ⟨c, hc, hs⟩ := h
    have := (TrimSpace_eq_nil_iff s).mp h0 c hc
    simp [hs] at this
  obtain ⟨c, rest, ht⟩ := List.exists_cons_of_ne_nil hne
  have hc := TrimSpace_head_not s c rest ht
  obtain ⟨init, d, hi⟩ : ∃ init d, TrimSpace s = init ++ [d] :=
    ⟨(TrimSpace s).dropLast, (TrimSpace s).getLast hne, (List.dropLast_append_getLast hne).symm⟩
  have hd := TrimSpace_last_not s init d hi
  obtain ⟨hd10, hdn⟩ := isSpace_false_ne_newline d hd
  obtain ⟨_, hcn⟩ := isSpace_false_ne_newline c hc
  have hnl : toBytes ['\n'] = [10] := by decide
  refine ⟨⟨?_, ?_⟩, ?_, ?_⟩
  · unfold normalizedContent
    rw [toBytes_append, hnl]
    simp
  · unfold normalizedContent
    rw [toBytes_append, hnl, hi, toBytes_append]
    obtain ⟨i2, b, hb, hb10⟩ := encodeRune_getLast d hd10
    have : toBytes [d] = i2 ++ [b] := by simp [toBytes, hb]
    rw [this]
    simp [List.dropLast_concat, ← List.append_assoc, hb10]
  · unfold normalizedContent firstLine hasNonSpace
    rw [ht]
    simp [List.takeWhile, hcn, hc]
  · unfold normalizedContent lastLine hasNonSpace
    rw [hi]
    simp [List.dropLast_concat, List.takeWhile, hdn, hd]

/-- C7 (amended): for content with at least one non-space character, the
`ContentData` computed by the loop body of `install.Prepare` is the encoding
of a text that ends with exactly one line feed and whose first and last lines
hold a non-space character; for empty or all-space content `ContentData` is
the single line feed. -/
theorem C7_normalized_content_invariant (fs : FS) (f : File) :
    (prepareFile fs f).1.ContentData = toBytes (normalizedContent f.Content) ∧
    ((∃ c ∈ f.Content, isSpace c = false) → contentInvariant (normalizedContent f.Content)) ∧
    ((∀ c ∈ f.Content, isSpace c = true) → (prepareFile fs f).1.ContentData = [10]) := by
  refine ⟨prepareFile_ContentData fs f, contentInvariant_of_nonblank f.Content, ?_⟩
  intro h
  rw [prepareFile_ContentData]
  unfold normalizedContent
  rw [(TrimSpace_eq_nil_iff f.Content).mpr h]
  decide

/-- C7 at the Write spec with content `line`. -/
theorem C7_normalized_content_invariant_witness :
    (prepareFile fsOtherLine specWriteLine).1.ContentData
        = toBytes (normalizedContent specWriteLine.Content) ∧
    contentInvariant (normalizedContent specWriteLine.Content) ∧
    (prepareFile fsOtherLine specEmpty).1.ContentData = [10] :=
  ⟨(C7_normalized_content_invariant fsOtherLine specWriteLine).1,
   (C7_normalized_content_invariant fsOtherLine specWriteLine).2.1 ⟨'l', by decide, by decide⟩,
   (C7_normalized_content_invariant fsOtherLine specEmpty).2.2 (by decide)⟩

/-- C7 as stated fails on the empty content: `ContentData` is the single
line feed, whose first (and last) line is blank. -/
theorem C7_empty_content_counterexample :
    (prepareFile fsOtherLine specEmpty).1.ContentData = [10] ∧
    (prepareFile fsOtherLine specEmpty).1.ContentData
        = toBytes (normalizedContent specEmpty.Content) ∧
    hasNonSpace (firstLine (normalizedContent specEmpty.Content)) = false ∧
    ¬ contentInvariant (normalizedContent specEmpty.Content) := by
  refine ⟨by decide, by decide, by decide, ?_⟩
  intro h
  exact absurd h.2.1 (by decide)

theorem lookupEntry_setEntry_self (c : String) (n : Node) (es : Entries) :
    lookupEntry c (setEntry c n es) = some n := by
  induction es with
  | nil => simp [setEntry, lookupEntry]
  | cons e es ih =>
    obtain ⟨k, m⟩ := e
    by_cases h : k = c
    · simp [setEntry, lookupEntry, h]
    · simp [setEntry, lookupEntry, h, ih]

theorem lookupEntry_setEntry_ne (c d : String) (n : Node) (es : Entries) (h : d ≠ c) :
    lookupEntry d (setEntry c n es) = lookupEntry d es := by
  induction es with
  | nil =>
    have : ¬ c = d := fun e => h e.symm
    simp [setEntry, lookupEntry, this]
  | cons e es ih =>
    obtain ⟨k, m⟩ := e
    by_cases hk : k = c
    · have : ¬ c = d := fun e => h e.symm
      have hkd : ¬ k = d := by rw [hk]; exact this
      simp [setEntry, lookupEntry, hk, this]
    · by_cases hkd : k = d
      · subst hkd
        simp [setEntry, lookupEntry, hk]
      · simp [setEntry, lookupEntry, hk, hkd, ih]

theorem setEntry_lookup_same (c : String) (n : Node) (es : Entries)
    (h : lookupEntry c es = some n) : setEntry c n es = es := by
  induction es with
  | nil => simp [lookupEntry] at h
  | cons e es ih =>
    obtain ⟨k, m⟩ := e
    by_cases hk : k = c
    · simp [lookupEntry, hk] at h
      simp [setEntry, hk, h]
    · simp [lookupEntry, hk] at h
      simp [setEntry, hk, ih h]

theorem statAt_nil_not_file (su : Bool) (p : Path) (d : List Nat) :
    statAt su [] p ≠ .ok (.file d) := by
  rcases p with _ | ⟨c, _ | ⟨c2, rest⟩⟩ <;> simp [statAt, lookupEntry]

/-- The bytes of the regular file at a path after an update of that path. -/
theorem statAt_updateFileAt (su : Bool) (g : Option (List Nat) → Except Errno (List Nat))
    (p : Path) (es es1 : Entries) (h : updateFileAt su g es p = .ok es1) :
    ∃ d1, statAt su es1 p = .ok (.file d1) ∧
      ((∃ d, statAt su es p = .ok (.file d) ∧ g (some d) = .ok d1) ∨
        (statAt su es p = .error .ENOENT ∧ g none = .ok d1)) := by
  induction p generalizing es es1 with
  | nil => simp [updateFileAt] at h
  | cons c rest ih =>
    cases rest with
    | nil =>
      simp only [updateFileAt] at h
      rcases hl : lookupEntry c es with _ | ⟨d | ⟨m, sub⟩⟩
      · rw [hl] at h
        simp only at h
        rcases hg : g none with e | d1
        · rw [hg] at h; simp at h
        · rw [hg] at h
          simp only [Except.ok.injEq] at h
          subst h
          exact ⟨d1, by simp [statAt, lookupEntry_setEntry_self],
            Or.inr ⟨by simp [statAt, hl], rfl⟩⟩
      · rw [hl] at h
        simp only at h
        rcases hg : g (some d) with e | d1
        · rw [hg] at h; simp at h
        · rw [hg] at h
          simp only [Except.ok.injEq] at h
          subst h
          exact ⟨d1, by simp [statAt, lookupEntry_setEntry_self],
            Or.inl ⟨d, by simp [statAt, hl], hg⟩⟩
      · rw [hl] at h
        simp at h
    | cons c2 rest2 =>
      rw [updateFileAt] at h
      rcases hl : lookupEntry c es with _ | ⟨d | ⟨m, sub⟩⟩
      · rw [hl] at h; simp at h
      · rw [hl] at h; simp at h
      · rw [hl] at h
        simp only at h
        by_cases hs : searchable su m = true
        · simp only [hs, if_true] at h
          rcases hu : updateFileAt su g sub (c2 :: rest2) with e | sub1
          · rw [hu] at h; simp at h
          · rw [hu] at h
            simp only [Except.ok.injEq] at h
            subst h
            obtain ⟨d1, h1, h2⟩ := ih sub sub1 hu
            refine ⟨d1, ?_, ?_⟩
            · simp only [statAt, lookupEntry_setEntry_self, hs, if_true]
              exact h1
            · simp only [statAt, hl, hs, if_true]
              exact h2
        · simp [hs] at h

/-- An update of one path changes no regular file at another path. -/
theorem statAt_updateFileAt_other (su : Bool)
    (g : Option (List Nat) → Except Errno (List Nat)) (p : Path) (es es1 : Entries)
    (h : updateFileAt su g es p = .ok es1) (q : Path) (hq : q ≠ p) (d : List Nat) :
    statAt su es1 q = .ok (.file d) ↔ statAt su es q = .ok (.file d) := by
  induction p generalizing es es1 q with
  | nil => simp [updateFileAt] at h
  | cons c rest ih =>
    cases rest with
    | nil =>
      have hes : ∃ d1, es1 = setEntry c (.file d1) es ∧
          (lookupEntry c es = none ∨ ∃ d0, lookupEntry c es = some (.file d0)) := by
        simp only [updateFileAt] at h
        rcases hl : lookupEntry c es with _ | ⟨d0 | ⟨m, sub⟩⟩
        · rw [hl] at h
          simp only at h
          rcases hg : g none with e | d1
          · rw [hg] at h; simp at h
          · rw [hg] at h
            simp only [Except.ok.injEq] at h
            exact ⟨d1, h.symm, Or.inl rfl⟩
        · rw [hl] at h
          simp only at h
          rcases hg : g (some d0) with e | d1
          · rw [hg] at h; simp at h
          · rw [hg] at h
            simp only [Except.ok.injEq] at h
            exact ⟨d1, h.symm, Or.inr ⟨d0, rfl⟩⟩
        · rw [hl] at h
          simp at h
      obtain ⟨d1, rfl, hl⟩ := hes
      rcases q with _ | ⟨c1, _ | ⟨c2, r⟩⟩
      · simp [statAt]
      · have hc : c1 ≠ c := fun e => hq (by rw [e])
        simp only [statAt, lookupEntry_setEntry_ne c c1 _ es hc]
      · by_cases hc : c1 = c
        · subst hc
          rcases hl with hl | ⟨d0, hl⟩ <;> simp [statAt, lookupEntry_setEntry_self, hl]
        · simp only [statAt, lookupEntry_setEntry_ne c c1 _ es hc]
    | cons c' rest2 =>
      rw [updateFileAt] at h
      rcases hl : lookupEntry c es with _ | ⟨d0 | ⟨m, sub⟩⟩
      · rw [hl] at h; simp at h
      · rw [hl] at h; simp at h
      · rw [hl] at h
        simp only at h
        by_cases hs : searchable su m = true
        · simp only [hs, if_true] at h
          rcases hu : updateFileAt su g sub (c' :: rest2) with e | sub1
          · rw [hu] at h; simp at h
          · rw [hu] at h
            simp only [Except.ok.injEq] at h
            subst h
            rcases q with _ | ⟨c1, _ | ⟨c2, r⟩⟩
            · simp [statAt]
            · by_cases hc : c1 = c
              · subst hc
                simp [statAt, lookupEntry_setEntry_self, hl]
              · simp only [statAt, lookupEntry_setEntry_ne c c1 _ es hc]
            · by_cases hc : c1 = c
              · subst hc
                simp only [statAt, lookupEntry_setEntry_self, hl, hs, if_true]
                exact ih sub sub1 hu (c2 :: r) (fun e => hq (by rw [e]))
              · simp only [statAt, lookupEntry_setEntry_ne c c1 _ es hc]
        · simp [hs] at h

/-- Creating directories neither creates, removes nor changes a regular
file, whether the walk ends with an error or not. -/
theorem statAt_mkdirAllAt (su : Bool) (perm : Nat) (q : Path) (es es1 : Entries)
    (e : Option Errno) (h : mkdirAllAt su perm es q = (es1, e)) (p : Path) (d : List Nat) :
    statAt su es1 p = .ok (.file d) ↔ statAt su es p = .ok (.file d) := by
  induction q generalizing es es1 e p with
  | nil =>
    simp only [mkdirAllAt, Prod.mk.injEq] at h
    rw [← h.1]
  | cons c rest ih =>
    cases rest with
    | nil =>
      simp only [mkdirAllAt] at h
      rcases hl : lookupEntry c es with _ | ⟨d0 | ⟨m, sub⟩⟩
      · rw [hl] at h
        simp only [Prod.mk.injEq] at h
        rw [← h.1]
        rcases p with _ | ⟨c1, _ | ⟨c2, r⟩⟩
        · simp [statAt]
        · by_cases hc : c1 = c
          · subst hc
            simp [statAt, lookupEntry_setEntry_self, hl]
          · simp only [statAt, lookupEntry_setEntry_ne c c1 _ es hc]
        · by_cases hc : c1 = c
          · subst hc
            simp only [statAt, lookupEntry_setEntry_self, hl]
            by_cases hs : searchable su perm = true
            · simp only [hs, if_true]
              constructor
              · intro h1
                exact absurd h1 (statAt_nil_not_file su (c2 :: r) d)
              · intro h1
                simp at h1
            · simp [hs]
          · simp only [statAt, lookupEntry_setEntry_ne c c1 _ es hc]
      · rw [hl] at h
        simp only [Prod.mk.injEq] at h
        rw [← h.1]
      · rw [hl] at h
        simp only [Prod.mk.injEq] at h
        rw [← h.1]
    | cons c' rest2 =>
      rw [mkdirAllAt] at h
      rcases hl : lookupEntry c es with _ | ⟨d0 | ⟨m, sub⟩⟩
      · rw [hl] at h
        simp only at h
        by_cases hs : searchable su perm = true
        · simp only [hs, if_true] at h
          rcases hm : mkdirAllAt su perm [] (c' :: rest2) with ⟨sub1, e1⟩
          rw [hm] at h
          simp only [Prod.mk.injEq] at h
          rw [← h.1]
          rcases p with _ | ⟨c1, _ | ⟨c2, r⟩⟩
          · simp [statAt]
          · by_cases hc : c1 = c
            · subst hc
              simp [statAt, lookupEntry_setEntry_self, hl]
            · simp only [statAt, lookupEntry_setEntry_ne c c1 _ es hc]
          · by_cases hc : c1 = c
            · subst hc
              simp only [statAt, lookupEntry_setEntry_self, hl, hs, if_true]
              have := ih [] sub1 e1 hm (c2 :: r)
              constructor
              · intro h1
                exact absurd (this.mp h1) (statAt_nil_not_file su (c2 :: r) d)
              · intro h1
                simp at h1
            · simp only [statAt, lookupEntry_setEntry_ne c c1 _ es hc]
        · simp only [hs, Bool.false_eq_true, if_false] at h
          simp only [Prod.mk.injEq] at h
          rw [← h.1]
          rcases p with _ | ⟨c1, _ | ⟨c2, r⟩⟩
          · simp [statAt]
          · by_cases hc : c1 = c
            · subst hc
              simp [statAt, lookupEntry_setEntry_self, hl]
            · simp only [statAt, lookupEntry_setEntry_ne c c1 _ es hc]
          · by_cases hc : c1 = c
            · subst hc
              simp [statAt, lookupEntry_setEntry_self, hl, hs]
            · simp only [statAt, lookupEntry_setEntry_ne c c1 _ es hc]
      · rw [hl] at h
        simp only [Prod.mk.injEq] at h
        rw [← h.1]
      · rw [hl] at h
        simp only at h
        by_cases hs : searchable su m = true
        · simp only [hs, if_true] at h
          rcases hm : mkdirAllAt su perm sub (c' :: rest2) with ⟨sub1, e1⟩
          rw [hm] at h
          simp only [Prod.mk.injEq] at h
          rw [← h.1]
          rcases p with _ | ⟨c1, _ | ⟨c2, r⟩⟩
          · simp [statAt]
          · by_cases hc : c1 = c
            · subst hc
              simp [statAt, lookupEntry_setEntry_self, hl]
            · simp only [statAt, lookupEntry_setEntry_ne c c1 _ es hc]
          · by_cases hc : c1 = c
            · subst hc
              simp only [statAt, lookupEntry_setEntry_self, hl, hs, if_true]
              exact ih sub sub1 e1 hm (c2 :: r)
            · simp only [statAt, lookupEntry_setEntry_ne c c1 _ es hc]
        · simp only [hs, Bool.false_eq_true, if_false] at h
          simp only [Prod.mk.injEq] at h
          rw [← h.1]

theorem readFile_ok_iff (fs : FS) (p : Path) (d : List Nat) :
    readFile fs p = .ok d ↔ statAt fs.superuser fs.root p = .ok (.file d) := by
  unfold readFile stat
  split <;> simp_all

theorem mkdirAll_superuser (fs : FS) (q : Path) (perm : Nat) :
    (mkdirAll fs q perm).1.superuser = fs.superuser := by
  unfold mkdirAll
  rcases mkdirAllAt fs.superuser perm fs.root q with ⟨r, e⟩
  rfl

/-- `os.MkdirAll` changes no regular file, whatever it returns. -/
theorem readFile_mkdirAll (fs : FS) (q : Path) (perm : Nat) (p : Path) (d : List Nat) :
    readFile (mkdirAll fs q perm).1 p = .ok d ↔ readFile fs p = .ok d := by
  rw [readFile_ok_iff, readFile_ok_iff, mkdirAll_superuser]
  unfold mkdirAll
  rcases hm : mkdirAllAt fs.superuser perm fs.root q with ⟨r, e⟩
  exact statAt_mkdirAllAt fs.superuser perm q fs.root r e hm p d

/-- What a successful open with truncation leaves. -/
theorem openTrunc_ok (fs fs1 : FS) (p : Path) (h : openTrunc fs p = .ok fs1) :
    fs1.space = fs.space ∧ readFile fs1 p = .ok [] ∧
    ∀ q, q ≠ p → ∀ d, readFile fs1 q = .ok d ↔ readFile fs q = .ok d := by
  unfold openTrunc at h
  rcases hu : updateFileAt fs.superuser (fun _ => .ok []) fs.root p with e | r
  · rw [hu] at h; simp at h
  · rw [hu] at h
    simp only [Except.ok.injEq] at h
    subst h
    refine ⟨rfl, ?_, ?_⟩
    · obtain ⟨d1, h1, h2⟩ := statAt_updateFileAt _ _ p fs.root r hu
      rw [readFile_ok_iff]
      rcases h2 with ⟨d, _, hg⟩ | ⟨_, hg⟩ <;>
        · simp only [Except.ok.injEq] at hg
          subst hg
          exact h1
    · intro q hq d
      rw [readFile_ok_iff, readFile_ok_iff]
      exact statAt_updateFileAt_other _ _ p fs.root r hu q hq d

/-- What a write on an open handle leaves: other files are as they were, and
when no error is returned the bytes were all appended. -/
theorem writeBytes_spec (fs : FS) (p : Path) (data : List Nat) :
    (∀ q, q ≠ p → ∀ d, readFile (writeBytes fs p data).1 q = .ok d ↔ readFile fs q = .ok d) ∧
    ((writeBytes fs p data).2 = none →
      ∀ d0, readFile fs p = .ok d0 → readFile (writeBytes fs p data).1 p = .ok (d0 ++ data)) := by
  unfold writeBytes
  simp only
  generalize hn : (match fs.space with
    | none => data.length
    | some k => min k data.length) = n
  rcases hu : updateFileAt fs.superuser (fun o =>
      match o with
      | none => .error .ENOENT
      | some d => .ok (d ++ data.take n)) fs.root p with e | r
  · simp
  · simp only
    refine ⟨?_, ?_⟩
    · intro q hq d
      rw [readFile_ok_iff, readFile_ok_iff]
      exact statAt_updateFileAt_other _ _ p fs.root r hu q hq d
    · intro hr d0 hd0
      have hlen : ¬ n < data.length := by
        intro hlt
        simp [hlt] at hr
      have htake : data.take n = data := List.take_of_length_le (by omega)
      obtain ⟨d1, h1, h2⟩ := statAt_updateFileAt _ _ p fs.root r hu
      rw [readFile_ok_iff] at hd0 ⊢
      rcases h2 with ⟨d, hs, hg⟩ | ⟨hs, hg⟩
      · rw [hs] at hd0
        simp only [Except.ok.injEq, Node.file.injEq] at hd0
        subst hd0
        simp only [Except.ok.injEq] at hg
        rw [htake] at hg
        subst hg
        exact h1
      · simp at hg

/-- What `os.WriteFile` leaves: other files are as they were, and when no
error is returned the file holds exactly the data. -/
theorem writeFile_spec (fs : FS) (p : Path) (data : List Nat) :
    (∀ q, q ≠ p → ∀ d, readFile (writeFile fs p data).1 q = .ok d ↔ readFile fs q = .ok d) ∧
    ((writeFile fs p data).2 = none → readFile (writeFile fs p data).1 p = .ok data) := by
  unfold writeFile
  rcases ho : openTrunc fs p with e | fs1
  · simp
  · simp only
    obtain ⟨_, h2, h3⟩ := openTrunc_ok fs fs1 p ho
    obtain ⟨w1, w2⟩ := writeBytes_spec fs1 p data
    refine ⟨fun q hq d => (w1 q hq d).trans (h3 q hq d), fun hr => ?_⟩
    have := w2 hr [] h2
    simpa using this

theorem openAppend_ok (fs : FS) (p : Path) (u : Unit) (h : openAppend fs p = .ok u) :
    ∃ d, readFile fs p = .ok d := by
  unfold openAppend at h
  unfold readFile
  rcases hs : stat fs p with e | ⟨d | ⟨m, sub⟩⟩
  · rw [hs] at h; simp at h
  · exact ⟨d, rfl⟩
  · rw [hs] at h; simp at h

theorem prepareFile_Path (fs : FS) (f : File) : (prepareFile fs f).1.Path = f.Path := by
  unfold prepareFile
  simp only
  split
  · split <;> rfl
  · split
    · rfl
    · split_ifs <;> rfl

theorem prepareFile_Action (fs : FS) (f : File) : (prepareFile fs f).1.Action = f.Action := by
  unfold prepareFile
  simp only
  split
  · split <;> rfl
  · split
    · rfl
    · split_ifs <;> rfl

/-- A Write spec that enters the loop body not installed and leaves it
installed has a target holding exactly `ContentData`. -/
theorem prepareFile_installed_write (fs : FS) (f : File) (hw : f.Action = Action_Write)
    (hi : f.Installed = false) (h : (prepareFile fs f).1.Installed = true) :
    readFile fs f.Path = .ok (toBytes (normalizedContent f.Content)) := by
  rcases hr : readFile fs f.Path with e | data
  · exfalso
    unfold prepareFile at h
    simp only [hr] at h
    split at h
    · split at h <;> simp [hi] at h
    · simp [hi] at h
  · rw [prepareFile_of_readable fs f data hr] at h
    simp [hw, bytesEqual] at h
    rw [h]

/-- The loop body of `install.Prepare` on a single-element batch. -/
theorem Prepare_singleton (fs : FS) (f : File) :
    Prepare fs [f] = ([(prepareFile fs f).1], (prepareFile fs f).2) := by
  simp only [Prepare]
  rcases hp : prepareFile fs f with ⟨f1, _ | e⟩ <;> rfl

/-- C5 fails on the code: a spec whose `Installed` flag is set (left by an
earlier pass) and whose path `/tmp/a` does not exist comes out of
`install.Prepare` with `Exists = false` but `Installed` still true, and
`File.Apply` then creates nothing. -/
theorem C5_stale_installed_flag :
    stat fsTmp specHiInstalled.Path = .error .ENOENT ∧
    (Prepare fsTmp [specHiInstalled]).2 = none ∧
    (Prepare fsTmp [specHiInstalled]).1.map File.Exists = [false] ∧
    (Prepare fsTmp [specHiInstalled]).1.map File.Installed = [true] ∧
    (File.Apply fsTmp (prepareFile fsTmp specHiInstalled).1).2 = none ∧
    readFile (File.Apply fsTmp (prepareFile fsTmp specHiInstalled).1).1 specHiInstalled.Path
      = .error .ENOENT := by
  refine ⟨by rfl, by decide, by decide, by decide, by decide, by decide⟩

theorem File.Apply_installed (fs : FS) (f : File) (h : f.Installed = true) :
    f.Apply fs = (fs, none) := by
  simp [File.Apply, h]

theorem Apply_all_installed (fs : FS) (files : List File)
    (h : ∀ g ∈ files, g.Installed = true) : Apply fs files = (fs, none) := by
  induction files with
  | nil => rfl
  | cons f rest ih =>
    have hf : f.Installed = true := h f (List.mem_cons_self _ _)
    simp only [Apply, File.Apply_installed fs f hf]
    exact ih (fun g hg => h g (List.mem_cons_of_mem _ hg))

/-- C4: `File.Apply` on a spec whose `Installed` flag is set returns no error
and the filesystem it was given, and `install.Apply` on a batch of such specs
does the same. -/
theorem C4_apply_noop_when_installed (fs : FS) (f : File) (files : List File) :
    (f.Installed = true → f.Apply fs = (fs, none)) ∧
    ((∀ g ∈ files, g.Installed = true) → Apply fs files = (fs, none)) :=
  ⟨File.Apply_installed fs f, Apply_all_installed fs files⟩

/-- C4 at the Append spec whose target already holds its content. -/
theorem C4_apply_noop_when_installed_witness :
    (prepareFile fsOtherLine specAppendLine).1.Installed = true ∧
    (prepareFile fsOtherLine specAppendLine).1.Apply fsOtherLine = (fsOtherLine, none) ∧
    Apply fsOtherLine [(prepareFile fsOtherLine specAppendLine).1, specHiInstalled]
      = (fsOtherLine, none) :=
  ⟨by decide,
   (C4_apply_noop_when_installed fsOtherLine (prepareFile fsOtherLine specAppendLine).1 []).1
     (by decide),
   (C4_apply_noop_when_installed fsOtherLine specHiInstalled
     [(prepareFile fsOtherLine specAppendLine).1, specHiInstalled]).2 (by decide)⟩

theorem prepareFile_exists_cases (fs : FS) (f : File) (h : (prepareFile fs f).2 = none) :
    ((prepareFile fs f).1.Exists = true → ∃ data, readFile fs f.Path = .ok data) ∧
    ((prepareFile fs f).1.Exists = false → readFile fs f.Path = .error .ENOENT) := by
  rcases hr : readFile fs f.Path with e | data
  · have hr0 := hr
    unfold prepareFile at h ⊢
    unfold readFile at hr
    simp only [hr0] at h ⊢
    rcases hs : stat fs f.Path with e1 | n
    · rw [hs] at hr
      simp only [Except.error.injEq] at hr
      subst hr
      simp only [hs] at h ⊢
      by_cases hne : isNotExist e1 = true
      · simp only [hne, if_true]
        have : e1 = Errno.ENOENT := by simpa [isNotExist] using hne
        simp [this]
      · simp [hne] at h
    · simp only [hs] at h
      simp at h
  · rw [prepareFile_of_readable fs f data hr]
    simp

theorem Prepare_singleton_ok (fs : FS) (f g : File) (h : Prepare fs [f] = ([g], none)) :
    g = (prepareFile fs f).1 ∧ (prepareFile fs f).2 = none := by
  rw [Prepare_singleton] at h
  simp only [Prod.mk.injEq, List.cons.injEq, and_true] at h
  exact ⟨h.1.symm, h.2⟩

/-- What a successful `File.Apply` of a spec that is not installed leaves at
its path, by action and `Exists` flag. -/
theorem File.Apply_ok (fs fs1 : FS) (g : File) (hi : g.Installed = false)
    (h : g.Apply fs = (fs1, none)) :
    (g.Action = Action_Append → g.Exists = true →
      ∃ prev, readFile fs g.Path = .ok prev ∧
        readFile fs1 g.Path = .ok (prev ++ [10] ++ g.ContentData)) ∧
    (g.Action = Action_Append → g.Exists = false → readFile fs1 g.Path = .ok g.ContentData) ∧
    (g.Action = Action_Write → readFile fs1 g.Path = .ok g.ContentData) := by
  unfold File.Apply at h
  simp only [hi, Bool.false_eq_true, if_false] at h
  have hmk := readFile_mkdirAll fs (pathDir g.Path) 420
  rcases hm : mkdirAll fs (pathDir g.Path) 420 with ⟨fs0, _ | e0⟩
  · rw [hm] at h hmk
    simp only at h hmk
    refine ⟨?_, ?_, ?_⟩
    · intro ha he
      simp only [ha, he, if_true] at h
      rcases ho : openAppend fs0 g.Path with e | u
      · rw [ho] at h; simp at h
      · rw [ho] at h
        simp only at h
        obtain ⟨prev, hprev⟩ := openAppend_ok fs0 g.Path u ho
        have w1 := (writeBytes_spec fs0 g.Path [10]).2
        rcases hw : writeBytes fs0 g.Path [10] with ⟨fs2, _ | e2⟩
        · rw [hw] at h w1
          simp only at h w1
          have h2 := w1 trivial prev hprev
          have w2 := (writeBytes_spec fs2 g.Path g.ContentData).2
          rw [h] at w2
          exact ⟨prev, (hmk g.Path prev).mp hprev, w2 rfl _ h2⟩
        · rw [hw] at h; simp at h
    · intro ha he
      simp only [ha, he, if_true, Bool.false_eq_true, if_false] at h
      have w := (writeFile_spec fs0 g.Path g.ContentData).2
      rw [h] at w
      exact w rfl
    · intro ha
      have hne : ¬ Action_Write = Action_Append := by decide
      simp only [ha, hne, if_true, if_false] at h
      have w := (writeFile_spec fs0 g.Path g.ContentData).2
      rw [h] at w
      exact w rfl
  · rw [hm] at h; simp at h

/-- Write idempotence where the first preparation computes `Installed`: for a
Write spec that enters preparation with `Installed` unset, or whose path
holds a readable file, if `install.Prepare` succeeds and `File.Apply` then
succeeds, the file at `Path` holds exactly `ContentData`, the bytes of
`TrimSpace(Content) + "\n"`, and a second `install.Prepare` on the resulting
filesystem succeeds with `Exists` and `Installed` both true. -/
theorem write_idempotence_when_recomputed (fs fs1 : FS) (f g : File)
    (hw : f.Action = Action_Write)
    (hi : f.Installed = false ∨ ∃ d, readFile fs f.Path = .ok d)
    (hp : Prepare fs [f] = ([g], none)) (ha : g.Apply fs = (fs1, none)) :
    readFile fs1 f.Path = .ok g.ContentData ∧
    g.ContentData = toBytes (TrimSpace f.Content ++ ['\n']) ∧
    ∃ g2, Prepare fs1 [g] = ([g2], none) ∧ g2.Exists = true ∧ g2.Installed = true ∧
      g2.ContentData = g.ContentData := by
  obtain ⟨hg, _⟩ := Prepare_singleton_ok fs f g hp
  have hpath : g.Path = f.Path := by rw [hg]; exact prepareFile_Path fs f
  have hact : g.Action = Action_Write := by rw [hg, prepareFile_Action]; exact hw
  have hcd : g.ContentData = toBytes (normalizedContent f.Content) := by
    rw [hg]; exact prepareFile_ContentData fs f
  have hcont : normalizedContent g.Content = normalizedContent f.Content := by
    unfold normalizedContent
    rw [hg, prepareFile_Content]
  have hread : readFile fs1 g.Path = .ok g.ContentData := by
    by_cases hgi : g.Installed = true
    · rw [File.Apply_installed fs g hgi] at ha
      simp only [Prod.mk.injEq, and_true] at ha
      subst ha
      rw [hpath, hcd]
      rcases hi with hi | ⟨d, hd⟩
      · exact prepareFile_installed_write fs f hw hi (by rw [← hg]; exact hgi)
      · rw [hg, prepareFile_of_readable fs f d hd] at hgi
        simp [hw, bytesEqual] at hgi
        rw [hd, hgi]
    · have hgi2 : g.Installed = false := by simpa using hgi
      exact (File.Apply_ok fs fs1 g hgi2 ha).2.2 hact
  refine ⟨by rw [← hpath]; exact hread, hcd, (prepareFile fs1 g).1, ?_, ?_⟩
  · rw [Prepare_singleton, prepareFile_of_readable fs1 g _ hread]
  · rw [prepareFile_of_readable fs1 g _ hread]
    simp [hact, hcont, hcd, bytesEqual]

/-- Scenario 1: the Write spec with content `  hi`, two spaces and two line
feeds, over an absent `/tmp/a` leaves the file holding `hi` and one line
feed, and the second preparation finds it installed. -/
theorem write_idempotence_scenario1 :
    readFile ((prepareFile fsTmp specHi).1.Apply fsTmp).1 ["tmp", "a"] = .ok [104, 105, 10] ∧
    (readFile ((prepareFile fsTmp specHi).1.Apply fsTmp).1 specHi.Path
        = .ok (prepareFile fsTmp specHi).1.ContentData ∧
      (prepareFile fsTmp specHi).1.ContentData = toBytes (TrimSpace specHi.Content ++ ['\n']) ∧
      ∃ g2, Prepare ((prepareFile fsTmp specHi).1.Apply fsTmp).1 [(prepareFile fsTmp specHi).1]
          = ([g2], none) ∧ g2.Exists = true ∧ g2.Installed = true ∧
        g2.ContentData = (prepareFile fsTmp specHi).1.ContentData) :=
  ⟨by decide,
   write_idempotence_when_recomputed fsTmp ((prepareFile fsTmp specHi).1.Apply fsTmp).1 specHi
     (prepareFile fsTmp specHi).1 (by decide) (Or.inl (by decide)) (by rfl) (by rfl)⟩

/-- C2 fails on the code for a Write spec that enters preparation with
`Installed` set (left by an earlier pass) while `/tmp/a` is absent:
`install.Prepare` and `File.Apply` both succeed, nothing is written, the file
at `Path` does not hold `ContentData`, and the second preparation reports
`Exists = false`. -/
theorem C2_stale_installed_no_write :
    specHiInstalled.Action = Action_Write ∧
    Prepare fsTmp [specHiInstalled] = ([(prepareFile fsTmp specHiInstalled).1], none) ∧
    (prepareFile fsTmp specHiInstalled).1.Apply fsTmp = (fsTmp, none) ∧
    readFile fsTmp specHiInstalled.Path = .error .ENOENT ∧
    (Prepare fsTmp [(prepareFile fsTmp specHiInstalled).1]).1.map File.Exists = [false] ∧
    ¬ (∀ (fs fs1 : FS) (f g : File), f.Action = Action_Write →
        Prepare fs [f] = ([g], none) → g.Apply fs = (fs1, none) →
        readFile fs1 f.Path = .ok g.ContentData) := by
  refine ⟨by decide, by rfl, by rfl, by decide, by decide, ?_⟩
  intro h
  have := h fsTmp fsTmp specHiInstalled (prepareFile fsTmp specHiInstalled).1
    (by decide) (by rfl) (by rfl)
  exact absurd this (by decide)

/-- The mode `0644` that `File.Apply` gives `os.MkdirAll`: a directory it
creates lacks the search bit, so for an ordinary user the write below it
fails with `EACCES` and the directory stays; the superuser writes the file. -/
theorem apply_below_new_directory :
    ((prepareFile fsTmp specBelowNew).1.Apply fsTmp).2 = some Errno.EACCES ∧
    stat ((prepareFile fsTmp specBelowNew).1.Apply fsTmp).1 ["tmp", "d"] = .ok (.dir 420 []) ∧
    ((prepareFile fsTmpRoot specBelowNew).1.Apply fsTmpRoot).2 = none ∧
    readFile ((prepareFile fsTmpRoot specBelowNew).1.Apply fsTmpRoot).1 ["tmp", "d", "x"]
      = .ok [118, 10] := by
  refine ⟨by decide, by rfl, by decide, by decide⟩

/-- C3: for an Append spec that `install.Prepare` leaves not installed, a
successful `File.Apply` leaves at `Path` the previous bytes, one line feed and
`ContentData` when the file existed at preparation time, and exactly
`ContentData` when it did not. -/
theorem C3_append_mutation (fs fs1 : FS) (f g : File) (hact : f.Action = Action_Append)
    (hp : Prepare fs [f] = ([g], none)) (hi : g.Installed = false)
    (ha : g.Apply fs = (fs1, none)) :
    (g.Exists = true →
      ∃ prev, readFile fs f.Path = .ok prev ∧
        readFile fs1 f.Path = .ok (prev ++ [10] ++ g.ContentData)) ∧
    (g.Exists = false →
      readFile fs f.Path = .error .ENOENT ∧ readFile fs1 f.Path = .ok g.ContentData) := by
  obtain ⟨hg, hnone⟩ := Prepare_singleton_ok fs f g hp
  have hpath : g.Path = f.Path := by rw [hg]; exact prepareFile_Path fs f
  have hga : g.Action = Action_Append := by rw [hg, prepareFile_Action]; exact hact
  obtain ⟨h1, h2, _⟩ := File.Apply_ok fs fs1 g hi ha
  rw [hpath] at h1 h2
  refine ⟨fun he => h1 hga he, fun he => ⟨?_, h2 hga he⟩⟩
  exact (prepareFile_exists_cases fs f hnone).2 (by rw [← hg]; exact he)

/-- C3 at two Append specs with content `bind`: over `/tmp/b` holding
`other`, `line` the file grows by an empty line and `bind`; over the absent
`/tmp/c` the file is created holding `bind` and a line feed. -/
theorem C3_append_mutation_witness :
    readFile ((prepareFile fsOtherLine specAppendBind).1.Apply fsOtherLine).1 ["tmp", "b"]
      = .ok (toBytes "other\nline\n\nbind\n".toList) ∧
    readFile ((prepareFile fsOtherLine specAppendFresh).1.Apply fsOtherLine).1 ["tmp", "c"]
      = .ok (toBytes "bind\n".toList) ∧
    ((prepareFile fsOtherLine specAppendBind).1.Exists = true →
      ∃ prev, readFile fsOtherLine specAppendBind.Path = .ok prev ∧
        readFile ((prepareFile fsOtherLine specAppendBind).1.Apply fsOtherLine).1
          specAppendBind.Path
          = .ok (prev ++ [10] ++ (prepareFile fsOtherLine specAppendBind).1.ContentData)) ∧
    ((prepareFile fsOtherLine specAppendFresh).1.Exists = false →
      readFile fsOtherLine specAppendFresh.Path = .error .ENOENT ∧
        readFile ((prepareFile fsOtherLine specAppendFresh).1.Apply fsOtherLine).1
          specAppendFresh.Path = .ok (prepareFile fsOtherLine specAppendFresh).1.ContentData) :=
  ⟨by decide, by decide,
   (C3_append_mutation fsOtherLine ((prepareFile fsOtherLine specAppendBind).1.Apply fsOtherLine).1
     specAppendBind (prepareFile fsOtherLine specAppendBind).1 (by decide) (by rfl) (by decide)
     (by rfl)).1,
   (C3_append_mutation fsOtherLine
     ((prepareFile fsOtherLine specAppendFresh).1.Apply fsOtherLine).1
     specAppendFresh (prepareFile fsOtherLine specAppendFresh).1 (by decide) (by rfl) (by decide)
     (by rfl)).2⟩

/-- `File.Apply` changes no regular file other than the one at its path,
whether it returns an error or not. -/
theorem applyFile_frame (fs : FS) (f : File) (q : Path) (hq : q ≠ f.Path) (d : List Nat) :
    readFile (f.Apply fs).1 q = .ok d ↔ readFile fs q = .ok d := by
  unfold File.Apply
  by_cases hi : f.Installed = true
  · simp [hi]
  · simp only [hi, if_false]
    have hmk := readFile_mkdirAll fs (pathDir f.Path) 420 q d
    rcases hm : mkdirAll fs (pathDir f.Path) 420 with ⟨fs0, _ | e0⟩
    · rw [hm] at hmk
      simp only at hmk ⊢
      have hwf := (writeFile_spec fs0 f.Path f.ContentData).1 q hq d
      by_cases ha : f.Action = Action_Append
      · simp only [ha, if_true]
        by_cases he : f.Exists = true
        · simp only [he, if_true]
          rcases ho : openAppend fs0 f.Path with e | u
          · exact hmk
          · simp only
            have w1 := (writeBytes_spec fs0 f.Path [10]).1 q hq d
            rcases hw : writeBytes fs0 f.Path [10] with ⟨fs2, _ | e2⟩
            · rw [hw] at w1
              simp only at w1 ⊢
              exact ((writeBytes_spec fs2 f.Path f.ContentData).1 q hq d).trans (w1.trans hmk)
            · rw [hw] at w1
              exact w1.trans hmk
        · simp only [he, Bool.false_eq_true, if_false]
          exact hwf.trans hmk
      · simp only [ha, if_false]
        by_cases hw : f.Action = Action_Write
        · simp only [hw, if_true]
          exact hwf.trans hmk
        · simp only [hw, if_false]
          exact hmk
    · rw [hm] at hmk
      exact hmk

theorem Apply_of_succeed (fs : FS) (files : List File) (h : succeedInOrder fs files = true) :
    Apply fs files = (applyInOrder fs files, none) := by
  induction files generalizing fs with
  | nil => rfl
  | cons f rest ih =>
    simp only [succeedInOrder, Bool.and_eq_true, Option.isNone_iff_eq_none] at h
    rcases hf : f.Apply fs with ⟨s, r⟩
    rw [hf] at h
    simp only at h
    obtain ⟨h1, h2⟩ := h
    subst h1
    simp only [Apply, applyInOrder, hf]
    exact ih s h2

theorem Apply_first_failure (fs : FS) (pre post : List File) (f : File) (e : Errno)
    (h : succeedInOrder fs pre = true) (hf : (f.Apply (applyInOrder fs pre)).2 = some e) :
    Apply fs (pre ++ f :: post) = ((f.Apply (applyInOrder fs pre)).1, some e) := by
  induction pre generalizing fs with
  | nil =>
    simp only [applyInOrder] at hf
    rcases hs : f.Apply fs with ⟨s, r⟩
    rw [hs] at hf
    simp only at hf
    subst hf
    simp [Apply, applyInOrder, hs]
  | cons g rest ih =>
    simp only [succeedInOrder, Bool.and_eq_true, Option.isNone_iff_eq_none] at h
    rcases hg : g.Apply fs with ⟨s, r⟩
    rw [hg] at h
    simp only at h
    obtain ⟨h1, h2⟩ := h
    subst h1
    simp only [applyInOrder, hg] at hf ⊢
    simp only [List.cons_append, Apply, hg]
    exact ih s h2 hf

/-- C10 (amended): `install.Apply` runs `File.Apply` on the specs in order.
When every one succeeds the result is that of applying each in turn. When
specs `1..k-1` succeed and spec `k` returns an error, `install.Apply` returns
that error, whatever specs follow; the filesystem is the one specs `1..k-1`
left after the failed attempt of spec `k`, and every regular file other than
the target of spec `k` holds what specs `1..k-1` left in it. -/
theorem C10_apply_order_partial_failure (fs : FS) (files pre post : List File) (f : File)
    (e : Errno) :
    (succeedInOrder fs files = true → Apply fs files = (applyInOrder fs files, none)) ∧
    (succeedInOrder fs pre = true → (f.Apply (applyInOrder fs pre)).2 = some e →
      Apply fs (pre ++ f :: post) = ((f.Apply (applyInOrder fs pre)).1, some e) ∧
      ∀ p, p ≠ f.Path → ∀ d,
        readFile (f.Apply (applyInOrder fs pre)).1 p = .ok d ↔
          readFile (applyInOrder fs pre) p = .ok d) := by
  refine ⟨Apply_of_succeed fs files, fun h hf => ⟨Apply_first_failure fs pre post f e h hf, ?_⟩⟩
  intro p hp d
  exact applyFile_frame (applyInOrder fs pre) f p hp d

/-- C10 at a batch prepared over an empty `/tmp`: writing `/tmp/a` succeeds,
writing `/tmp/a/x` then fails with `ENOTDIR`, and the Append spec for `/tmp/c`
that follows is never run; without the failing spec both others are applied. -/
theorem C10_apply_order_partial_failure_witness :
    (Apply fsTmp ([(prepareFile fsTmp specHi).1] ++
        (prepareFile fsTmp specBelowHi).1 :: [(prepareFile fsTmp specAppendFresh).1])).2
      = some Errno.ENOTDIR ∧
    readFile (Apply fsTmp ([(prepareFile fsTmp specHi).1] ++
        (prepareFile fsTmp specBelowHi).1 :: [(prepareFile fsTmp specAppendFresh).1])).1
      ["tmp", "a"] = .ok [104, 105, 10] ∧
    readFile (Apply fsTmp ([(prepareFile fsTmp specHi).1] ++
        (prepareFile fsTmp specBelowHi).1 :: [(prepareFile fsTmp specAppendFresh).1])).1
      ["tmp", "c"] = .error .ENOENT ∧
    Apply fsTmp [(prepareFile fsTmp specHi).1, (prepareFile fsTmp specAppendFresh).1]
      = (applyInOrder fsTmp
          [(prepareFile fsTmp specHi).1, (prepareFile fsTmp specAppendFresh).1], none) ∧
    (Apply fsTmp ([(prepareFile fsTmp specHi).1] ++
        (prepareFile fsTmp specBelowHi).1 :: [(prepareFile fsTmp specAppendFresh).1])
      = (((prepareFile fsTmp specBelowHi).1.Apply
            (applyInOrder fsTmp [(prepareFile fsTmp specHi).1])).1, some Errno.ENOTDIR) ∧
      ∀ p, p ≠ (prepareFile fsTmp specBelowHi).1.Path → ∀ d,
        readFile ((prepareFile fsTmp specBelowHi).1.Apply
            (applyInOrder fsTmp [(prepareFile fsTmp specHi).1])).1 p = .ok d ↔
          readFile (applyInOrder fsTmp [(prepareFile fsTmp specHi).1]) p = .ok d) :=
  ⟨by decide, by decide, by decide,
   (C10_apply_order_partial_failure fsTmp
     [(prepareFile fsTmp specHi).1, (prepareFile fsTmp specAppendFresh).1] [] []
     specHi Errno.ENOENT).1 (by decide),
   (C10_apply_order_partial_failure fsTmp [] [(prepareFile fsTmp specHi).1]
     [(prepareFile fsTmp specAppendFresh).1] (prepareFile fsTmp specBelowHi).1
     Errno.ENOTDIR).2 (by decide) (by decide)⟩

/-- C10 as stated fails when the device stops accepting bytes during the
write of spec `k`: over `/tmp/a` holding `old` and a device with room for one
byte, the Write spec fails with `ENOSPC` and leaves its target holding `h`;
the Append spec for `/tmp/b` fails after the separator and leaves its target
one line feed longer. The target of the failing spec is not untouched. -/
theorem C10_short_write_counterexample :
    readFile fsNoSpace ["tmp", "a"] = .ok (toBytes "old\n".toList) ∧
    (Prepare fsNoSpace [specHi, specAppendBind]).2 = none ∧
    Apply fsNoSpace [(prepareFile fsNoSpace specHi).1, (prepareFile fsNoSpace specAppendBind).1]
      = (((prepareFile fsNoSpace specHi).1.Apply fsNoSpace).1, some Errno.ENOSPC) ∧
    readFile ((prepareFile fsNoSpace specHi).1.Apply fsNoSpace).1 ["tmp", "a"] = .ok [104] ∧
    ((prepareFile fsNoSpace specAppendBind).1.Apply fsNoSpace).2 = some Errno.ENOSPC ∧
    readFile ((prepareFile fsNoSpace specAppendBind).1.Apply fsNoSpace).1 ["tmp", "b"]
      = .ok (toBytes "other\nline\n\n".toList) ∧
    ¬ (∀ p d, readFile ((prepareFile fsNoSpace specHi).1.Apply fsNoSpace).1 p = .ok d ↔
        readFile fsNoSpace p = .ok d) := by
  refine ⟨by decide, by decide, by rfl, by decide, by decide, by decide, ?_⟩
  intro h
  exact absurd ((h ["tmp", "a"] [104]).mp (by decide)) (by decide)

theorem askByte_cons (b : Nat) (rest : List Nat) (dflt : Nat) (h : Nat → Option Err) :
    askByte (b :: rest) dflt h
      = ((if b = 10 ∨ b = 13 then dflt else b,
          h (if b = 10 ∨ b = 13 then dflt else b)), rest) := by
  simp only [askByte]
  split <;> simp_all

theorem askByte_nil (dflt : Nat) (h : Nat → Option Err) :
    ∃ e, askByte [] dflt h = ((0, some e), []) := by
  simp only [askByte]
  split
  · exact ⟨_, rfl⟩
  · exact ⟨_, rfl⟩

/-- What `askYesNo` with default no returns, by the byte read. -/
theorem askYesNo_false_cons (b : Nat) (rest : List Nat) :
    askYesNo (b :: rest) false =
      (if b = 121 ∨ b = 89 then some (true, none)
       else if b = 110 ∨ b = 78 ∨ b = 10 ∨ b = 13 then some (false, none)
       else some (false, some Err.ErrInvalidYesNoResponse), rest) := by
  simp only [askYesNo, askByte_cons, yesNoResponse]
  by_cases h1 : b = 10 ∨ b = 13
  · rcases h1 with rfl | rfl <;> simp
  · have h10 : b ≠ 10 := fun h => h1 (Or.inl h)
    have h13 : b ≠ 13 := fun h => h1 (Or.inr h)
    simp only [h1, if_false, h10, h13, or_false]
    by_cases h2 : b = 121 ∨ b = 89
    · simp [h2]
    · by_cases h3 : b = 110 ∨ b = 78
      · simp [h2, h3]
      · simp [h2, h3]

theorem askYesNo_nil (dflt : Bool) :
    askYesNo [] dflt = (some (false, some Err.ErrInvalidYesNoResponse), []) := by
  cases dflt <;> rfl

/-- The step-by-step loop changes the filesystem only after reading a `y`
or a `Y`. -/
theorem stepByStep_unchanged (files : List File) (fs : FS) (input : List Nat) :
    ∃ read, input = read ++ (stepByStep fs files input).unread ∧
      ((∀ b ∈ read, b ≠ 121 ∧ b ≠ 89) → (stepByStep fs files input).fs = fs) := by
  induction files generalizing fs input with
  | nil => exact ⟨[], by simp [stepByStep], fun _ => rfl⟩
  | cons f rest ih =>
    cases input with
    | nil =>
      refine ⟨[], ?_, fun _ => ?_⟩ <;> simp [stepByStep, askYesNo_nil]
    | cons b tail =>
      simp only [stepByStep, askYesNo_false_cons]
      by_cases h2 : b = 121 ∨ b = 89
      · simp only [h2, if_true]
        rcases hA : Apply fs [f] with ⟨fs1, _ | e⟩
        · simp only
          obtain ⟨read, hr1, _⟩ := ih fs1 tail
          refine ⟨b :: read, by simp [← hr1], fun hb => ?_⟩
          have := hb b (List.mem_cons_self _ _)
          omega
        · simp only
          refine ⟨[b], by simp, fun hb => ?_⟩
          have := hb b (List.mem_cons_self _ _)
          omega
      · simp only [h2, if_false]
        by_cases h3 : b = 110 ∨ b = 78 ∨ b = 10 ∨ b = 13
        · simp only [h3, if_true]
          obtain ⟨read, hr1, hr2⟩ := ih fs tail
          exact ⟨b :: read, by simp [← hr1],
            fun hb => hr2 (fun c hc => hb c (List.mem_cons_of_mem _ hc))⟩
        · simp only [h3, if_false]
          exact ⟨[b], by simp, by simp⟩

/-- The first prompt of `doInstall`, by the byte read. -/
theorem doInstall_cons (fs : FS) (files files1 : List File) (b : Nat) (rest : List Nat)
    (hP : Prepare fs files = (files1, none)) (hI : IsInstalled files1 = false) :
    doInstall fs files (b :: rest) =
      if b = 121 ∨ b = 89 then fatalApply fs files1 rest
      else if b = 110 ∨ b = 78 ∨ b = 10 ∨ b = 13 then ⟨fs, 0, rest⟩
      else if b = 63 then
        match rest with
        | [] => ⟨fs, 1, []⟩
        | b1 :: rest1 =>
          if b1 = 121 ∨ b1 = 89 then fatalApply fs files1 rest1
          else if b1 = 110 ∨ b1 = 78 ∨ b1 = 10 ∨ b1 = 13 then ⟨fs, 0, rest1⟩
          else if b1 = 115 ∨ b1 = 83 then stepByStep fs files1 rest1
          else ⟨fs, 1, rest1⟩
      else ⟨fs, 1, rest⟩ := by
  simp only [doInstall, hP, hI, askByte_cons]
  by_cases h1 : b = 10 ∨ b = 13
  · rcases h1 with rfl | rfl <;> simp [initialResponse]
  · have h10 : b ≠ 10 := fun h => h1 (Or.inl h)
    have h13 : b ≠ 13 := fun h => h1 (Or.inr h)
    simp only [h1, if_false, h10, h13, or_false]
    by_cases h2 : b = 121 ∨ b = 89
    · simp [h2, initialResponse]
    · by_cases h3 : b = 110 ∨ b = 78
      · simp [h2, h3, initialResponse]
      · by_cases h4 : b = 63
        · subst h4
          simp only [initialResponse]
          simp only [show ¬ ((63 : Nat) = 121 ∨ (63 : Nat) = 89) by decide,
            show ¬ ((63 : Nat) = 110 ∨ (63 : Nat) = 78) by decide, if_false, if_true]
          cases rest with
          | nil =>
            obtain ⟨e, he⟩ := askByte_nil 110 detailsResponse
            simp [he]
          | cons b1 rest1 =>
            simp only [askByte_cons]
            by_cases g1 : b1 = 10 ∨ b1 = 13
            · rcases g1 with rfl | rfl <;> simp [detailsResponse]
            · have g10 : b1 ≠ 10 := fun h => g1 (Or.inl h)
              have g13 : b1 ≠ 13 := fun h => g1 (Or.inr h)
              simp only [g1, if_false, g10, g13, or_false]
              by_cases g2 : b1 = 121 ∨ b1 = 89
              · simp [g2, detailsResponse]
              · by_cases g3 : b1 = 110 ∨ b1 = 78
                · simp [g2, g3, detailsResponse]
                · by_cases g4 : b1 = 115 ∨ b1 = 83
                  · simp [g2, g3, g4, detailsResponse]
                  · simp [g2, g3, g4, detailsResponse]
        · simp [h2, h3, h4, initialResponse]

/-- Without a prompt (preparation failed, or every spec is installed)
`doInstall` reads nothing and writes nothing. -/
theorem doInstall_unprompted (fs : FS) (files : List File) (input : List Nat)
    (h : (Prepare fs files).2 ≠ none ∨ IsInstalled (Prepare fs files).1 = true) :
    (doInstall fs files input).fs = fs ∧ (doInstall fs files input).unread = input := by
  rcases hP : Prepare fs files with ⟨files1, _ | e⟩
  · rw [hP] at h
    have hI : IsInstalled files1 = true := by simpa using h
    simp [doInstall, hP, hI]
  · simp [doInstall, hP]

theorem fatalApply_unread (fs : FS) (files : List File) (rest : List Nat) :
    (fatalApply fs files rest).unread = rest := by
  unfold fatalApply
  split <;> rfl

theorem doInstall_reads (fs : FS) (files : List File) (input : List Nat) :
    ∃ read, input = read ++ (doInstall fs files input).unread ∧
      ((∀ b ∈ read, b ≠ 121 ∧ b ≠ 89) → (doInstall fs files input).fs = fs) := by
  by_cases h : (Prepare fs files).2 ≠ none ∨ IsInstalled (Prepare fs files).1 = true
  · obtain ⟨h1, h2⟩ := doInstall_unprompted fs files input h
    exact ⟨[], by simp [h2], fun _ => h1⟩
  · have hP : Prepare fs files = ((Prepare fs files).1, none) := by
      have h2 : (Prepare fs files).2 = none := by
        by_contra hc
        exact h (Or.inl hc)
      exact Prod.ext rfl h2
    have hI : IsInstalled (Prepare fs files).1 = false := by
      by_contra hc
      exact h (Or.inr (by simpa using hc))
    cases input with
    | nil =>
      obtain ⟨e, he⟩ := askByte_nil 110 initialResponse
      refine ⟨[], ?_, fun _ => ?_⟩ <;> rw [doInstall, hP] <;> simp [hI, he]
    | cons b rest =>
      rw [doInstall_cons fs files _ b rest hP hI]
      by_cases h2 : b = 121 ∨ b = 89
      · simp only [h2, if_true]
        refine ⟨[b], by simp [fatalApply_unread], fun hb => ?_⟩
        have := hb b (List.mem_cons_self _ _)
        omega
      · simp only [h2, if_false]
        by_cases h3 : b = 110 ∨ b = 78 ∨ b = 10 ∨ b = 13
        · simp only [h3, if_true]
          exact ⟨[b], by simp, by simp⟩
        · simp only [h3, if_false]
          by_cases h4 : b = 63
          · simp only [h4, if_true]
            cases rest with
            | nil => exact ⟨[63], by simp, by simp⟩
            | cons b1 rest1 =>
              simp only
              by_cases g2 : b1 = 121 ∨ b1 = 89
              · simp only [g2, if_true]
                refine ⟨[63, b1], by simp [fatalApply_unread], fun hb => ?_⟩
                have := hb b1 (by simp)
                omega
              · simp only [g2, if_false]
                by_cases g3 : b1 = 110 ∨ b1 = 78 ∨ b1 = 10 ∨ b1 = 13
                · simp only [g3, if_true]
                  exact ⟨[63, b1], by simp, by simp⟩
                · simp only [g3, if_false]
                  by_cases g4 : b1 = 115 ∨ b1 = 83
                  · simp only [g4, if_true]
                    obtain ⟨read, hr1, hr2⟩ := stepByStep_unchanged (Prepare fs files).1 fs rest1
                    refine ⟨63 :: b1 :: read, by simp [← hr1], fun hb => hr2 (fun c hc => ?_)⟩
                    exact hb c (by simp [hc])
                  · simp only [g4, if_false]
                    exact ⟨[63, b1], by simp, by simp⟩
          · simp only [h4, if_false]
            exact ⟨[b], by simp, by simp⟩

/-- A step-by-step prompt that reads a byte outside its alphabet ends the run
with status 1; when every earlier answer was a no, nothing was written. -/
theorem stepByStep_invalid (files : List File) (fs : FS) (answers : List Nat) (b : Nat)
    (rest : List Nat) (hlen : answers.length < files.length)
    (hval : ∀ a ∈ answers, a = 121 ∨ a = 89 ∨ a = 110 ∨ a = 78 ∨ a = 10 ∨ a = 13)
    (hb : b ∉ [121, 89, 110, 78, 10, 13]) :
    (stepByStep fs files (answers ++ b :: rest)).status = 1 ∧
    ((∀ a ∈ answers, a ≠ 121 ∧ a ≠ 89) →
      stepByStep fs files (answers ++ b :: rest) = ⟨fs, 1, rest⟩) := by
  simp only [List.mem_cons, List.mem_singleton, List.not_mem_nil, or_false, not_or] at hb
  obtain ⟨b1, b2, b3, b4, b5, b6⟩ := hb
  induction files generalizing fs answers with
  | nil => simp at hlen
  | cons f files ih =>
    cases answers with
    | nil =>
      have h2 : ¬ (b = 121 ∨ b = 89) := by omega
      have h3 : ¬ (b = 110 ∨ b = 78 ∨ b = 10 ∨ b = 13) := by omega
      simp [stepByStep, askYesNo_false_cons, h2, h3]
    | cons a as =>
      have hlen1 : as.length < files.length := by simpa using hlen
      have hval1 : ∀ x ∈ as, x = 121 ∨ x = 89 ∨ x = 110 ∨ x = 78 ∨ x = 10 ∨ x = 13 :=
        fun x hx => hval x (List.mem_cons_of_mem _ hx)
      have ha := hval a (List.mem_cons_self _ _)
      simp only [List.cons_append, stepByStep, askYesNo_false_cons]
      by_cases h2 : a = 121 ∨ a = 89
      · simp only [h2, if_true]
        rcases hA : Apply fs [f] with ⟨fs1, _ | e⟩
        · simp only
          refine ⟨(ih fs1 as hlen1 hval1).1, fun hno => ?_⟩
          have := hno a (List.mem_cons_self _ _)
          omega
        · simp only
          refine ⟨trivial, fun hno => ?_⟩
          have := hno a (List.mem_cons_self _ _)
          omega
      · have h3 : a = 110 ∨ a = 78 ∨ a = 10 ∨ a = 13 := by omega
        simp only [h2, h3, if_false, if_true]
        obtain ⟨i1, i2⟩ := ih fs as hlen1 hval1
        exact ⟨i1, fun hno => i2 (fun x hx => hno x (List.mem_cons_of_mem _ hx))⟩

theorem doInstall_prompted_or_not (fs : FS) (files : List File) :
    ((Prepare fs files).2 ≠ none ∨ IsInstalled (Prepare fs files).1 = true) ∨
    (Prepare fs files = ((Prepare fs files).1, none) ∧
      IsInstalled (Prepare fs files).1 = false) := by
  by_cases h : (Prepare fs files).2 ≠ none ∨ IsInstalled (Prepare fs files).1 = true
  · exact Or.inl h
  · refine Or.inr ⟨?_, ?_⟩
    · have h2 : (Prepare fs files).2 = none := by
        by_contra hc
        exact h (Or.inl hc)
      exact Prod.ext rfl h2
    · by_contra hc
      exact h (Or.inr (by simpa using hc))

/-- C8: `doInstall` changes the filesystem only if one of the bytes its
prompts read is `y` or `Y` (every prompt of `doInstall` has default `n`, so
these are the prompts answered yes). In particular the filesystem is
unchanged and nothing is read when every spec is installed; it is unchanged
when the first prompt, or the details prompt reached by `?`, reads `n`, `N`,
line feed or carriage return; and a byte outside the alphabet of the prompt
that reads it (the first prompt, the details prompt, or a step-by-step prompt
after any valid answers) ends the run with status 1, the filesystem unchanged
when no earlier answer was a yes. -/
theorem C8_no_write_without_confirmation (fs : FS) (files : List File) (input : List Nat) :
    (∃ read, input = read ++ (doInstall fs files input).unread ∧
      ((∀ b ∈ read, b ≠ 121 ∧ b ≠ 89) → (doInstall fs files input).fs = fs)) ∧
    (IsInstalled (Prepare fs files).1 = true →
      (doInstall fs files input).fs = fs ∧ (doInstall fs files input).unread = input) ∧
    (∀ b rest, input = b :: rest → (b = 110 ∨ b = 78 ∨ b = 10 ∨ b = 13) →
      (doInstall fs files input).fs = fs) ∧
    (∀ b rest, input = 63 :: b :: rest → (b = 110 ∨ b = 78 ∨ b = 10 ∨ b = 13) →
      (doInstall fs files input).fs = fs) ∧
    (∀ b rest, input = b :: rest → b ∉ [121, 89, 110, 78, 63, 10, 13] →
      (doInstall fs files input).fs = fs ∧
      ((Prepare fs files).2 = none → IsInstalled (Prepare fs files).1 = false →
        (doInstall fs files input).status = 1)) ∧
    (∀ b rest, input = 63 :: b :: rest → b ∉ [121, 89, 110, 78, 115, 83, 10, 13] →
      (doInstall fs files input).fs = fs ∧
      ((Prepare fs files).2 = none → IsInstalled (Prepare fs files).1 = false →
        (doInstall fs files input).status = 1)) ∧
    (∀ s answers b rest, input = 63 :: s :: (answers ++ b :: rest) → (s = 115 ∨ s = 83) →
      answers.length < files.length →
      (∀ a ∈ answers, a = 121 ∨ a = 89 ∨ a = 110 ∨ a = 78 ∨ a = 10 ∨ a = 13) →
      b ∉ [121, 89, 110, 78, 10, 13] →
      ((∀ a ∈ answers, a ≠ 121 ∧ a ≠ 89) → (doInstall fs files input).fs = fs) ∧
      ((Prepare fs files).2 = none → IsInstalled (Prepare fs files).1 = false →
        (doInstall fs files input).status = 1)) := by
  refine ⟨doInstall_reads fs files input,
    fun h => doInstall_unprompted fs files input (Or.inr h), ?_, ?_, ?_, ?_, ?_⟩
  · rintro b rest rfl hb
    rcases doInstall_prompted_or_not fs files with h | ⟨hP, hI⟩
    · exact (doInstall_unprompted fs files _ h).1
    · rw [doInstall_cons fs files _ b rest hP hI]
      have h2 : ¬ (b = 121 ∨ b = 89) := by omega
      simp [h2, hb]
  · rintro b rest rfl hb
    rcases doInstall_prompted_or_not fs files with h | ⟨hP, hI⟩
    · exact (doInstall_unprompted fs files _ h).1
    · rw [doInstall_cons fs files _ 63 (b :: rest) hP hI]
      have h2 : ¬ (b = 121 ∨ b = 89) := by omega
      simp [h2, hb]
  · rintro b rest rfl hb
    simp only [List.mem_cons, List.mem_singleton, List.not_mem_nil, or_false, not_or] at hb
    obtain ⟨b1, b2, b3, b4, b5, b6, b7⟩ := hb
    have h2 : ¬ (b = 121 ∨ b = 89) := by omega
    have h3 : ¬ (b = 110 ∨ b = 78 ∨ b = 10 ∨ b = 13) := by omega
    rcases doInstall_prompted_or_not fs files with h | ⟨hP, hI⟩
    · refine ⟨(doInstall_unprompted fs files _ h).1, fun g1 g2 => ?_⟩
      rcases h with h | h
      · exact absurd g1 h
      · rw [g2] at h
        simp at h
    · rw [doInstall_cons fs files _ b rest hP hI]
      simp [h2, h3, b5]
  · rintro b rest rfl hb
    simp only [List.mem_cons, List.mem_singleton, List.not_mem_nil, or_false, not_or] at hb
    obtain ⟨b1, b2, b3, b4, b5, b6, b7, b8⟩ := hb
    have h2 : ¬ (b = 121 ∨ b = 89) := by omega
    have h3 : ¬ (b = 110 ∨ b = 78 ∨ b = 10 ∨ b = 13) := by omega
    have h4 : ¬ (b = 115 ∨ b = 83) := by omega
    rcases doInstall_prompted_or_not fs files with h | ⟨hP, hI⟩
    · refine ⟨(doInstall_unprompted fs files _ h).1, fun g1 g2 => ?_⟩
      rcases h with h | h
      · exact absurd g1 h
      · rw [g2] at h
        simp at h
    · rw [doInstall_cons fs files _ 63 (b :: rest) hP hI]
      simp [h2, h3, h4]
  · rintro s answers b rest rfl hs hlen hval hb
    rcases doInstall_prompted_or_not fs files with h | ⟨hP, hI⟩
    · refine ⟨fun _ => (doInstall_unprompted fs files _ h).1, fun g1 g2 => ?_⟩
      rcases h with h | h
      · exact absurd g1 h
      · rw [g2] at h
        simp at h
    · have hlen1 : answers.length < (Prepare fs files).1.length := by
        rw [(Prepare_ok fs files _ hP).1, List.length_map]
        exact hlen
      have s1 : ¬ (s = 121 ∨ s = 89) := by omega
      have s2 : ¬ (s = 110 ∨ s = 78 ∨ s = 10 ∨ s = 13) := by omega
      obtain ⟨i1, i2⟩ := stepByStep_invalid (Prepare fs files).1 fs answers b rest hlen1 hval hb
      rw [doInstall_cons fs files _ 63 _ hP hI]
      simp only [show ¬ ((63 : Nat) = 121 ∨ (63 : Nat) = 89) by decide,
        show ¬ ((63 : Nat) = 110 ∨ (63 : Nat) = 78 ∨ (63 : Nat) = 10 ∨ (63 : Nat) = 13) by decide,
        s1, s2, hs, if_false, if_true]
      exact ⟨fun hno => by rw [i2 hno], fun _ _ => i1⟩

theorem Apply_singleton (fs : FS) (f : File) : Apply fs [f] = f.Apply fs := by
  simp only [Apply]
  rcases f.Apply fs with ⟨s, _ | e⟩ <;> rfl

theorem succeed_of_Apply_none (fs : FS) (files : List File) (h : (Apply fs files).2 = none) :
    succeedInOrder fs files = true := by
  induction files generalizing fs with
  | nil => rfl
  | cons f rest ih =>
    simp only [Apply] at h
    simp only [succeedInOrder, Bool.and_eq_true, Option.isNone_iff_eq_none]
    rcases hf : f.Apply fs with ⟨s, _ | e⟩
    · rw [hf] at h
      exact ⟨rfl, ih s h⟩
    · rw [hf] at h
      simp at h

/-- The step-by-step loop over one valid answer per spec. -/
theorem stepByStep_accepted (files : List File) (fs : FS) (answers rest : List Nat)
    (hlen : answers.length = files.length)
    (hval : ∀ a ∈ answers, a = 121 ∨ a = 89 ∨ a = 110 ∨ a = 78 ∨ a = 10 ∨ a = 13) :
    (stepByStep fs files (answers ++ rest)).fs = (Apply fs (accepted files answers)).1 ∧
    (stepByStep fs files (answers ++ rest)).status
      = (if (Apply fs (accepted files answers)).2 = none then 0 else 1) ∧
    ((Apply fs (accepted files answers)).2 = none →
      (stepByStep fs files (answers ++ rest)).unread = rest) := by
  induction files generalizing fs answers with
  | nil =>
    cases answers with
    | nil => simp [stepByStep, accepted, Apply]
    | cons a as => simp at hlen
  | cons f files ih =>
    cases answers with
    | nil => simp at hlen
    | cons a as =>
      have hlen1 : as.length = files.length := by simpa using hlen
      have hval1 : ∀ x ∈ as, x = 121 ∨ x = 89 ∨ x = 110 ∨ x = 78 ∨ x = 10 ∨ x = 13 :=
        fun x hx => hval x (List.mem_cons_of_mem _ hx)
      have ha := hval a (List.mem_cons_self _ _)
      simp only [List.cons_append, stepByStep, askYesNo_false_cons, accepted]
      by_cases h2 : a = 121 ∨ a = 89
      · simp only [h2, if_true, Apply_singleton]
        rcases hA : f.Apply fs with ⟨fs1, _ | e⟩
        · simp only [Apply, hA]
          exact ih fs1 as hlen1 hval1
        · simp [Apply, hA]
      · have h3 : a = 110 ∨ a = 78 ∨ a = 10 ∨ a = 13 := by omega
        simp only [h2, h3, if_false, if_true]
        exact ih fs as hlen1 hval1

/-- C9: after `?` at the first prompt and `s` or `S` at the details prompt,
with one answer out of `y`, `Y`, `n`, `N`, line feed, carriage return per
spec, `doInstall` leaves the filesystem that `install.Apply` leaves on the
prepared specs answered `y` or `Y`, in their order; when each of these
applies without error this is the filesystem of running `File.Apply` on them
one after the other, the exit status is 0 and every answer has been read. -/
theorem C9_step_by_step (fs : FS) (files : List File) (s : Nat) (answers rest : List Nat)
    (hP : (Prepare fs files).2 = none) (hI : IsInstalled (Prepare fs files).1 = false)
    (hs : s = 115 ∨ s = 83) (hlen : answers.length = files.length)
    (hval : ∀ a ∈ answers, a = 121 ∨ a = 89 ∨ a = 110 ∨ a = 78 ∨ a = 10 ∨ a = 13) :
    (doInstall fs files (63 :: s :: (answers ++ rest))).fs
      = (Apply fs (accepted (Prepare fs files).1 answers)).1 ∧
    (succeedInOrder fs (accepted (Prepare fs files).1 answers) = true →
      doInstall fs files (63 :: s :: (answers ++ rest))
        = ⟨applyInOrder fs (accepted (Prepare fs files).1 answers), 0, rest⟩) ∧
    (succeedInOrder fs (accepted (Prepare fs files).1 answers) = false →
      (doInstall fs files (63 :: s :: (answers ++ rest))).status = 1) := by
  have hP1 : Prepare fs files = ((Prepare fs files).1, none) := Prod.ext rfl hP
  have hlen1 : answers.length = (Prepare fs files).1.length := by
    rw [(Prepare_ok fs files _ hP1).1, List.length_map, hlen]
  rw [doInstall_cons fs files _ 63 _ hP1 hI]
  have e1 : ¬ ((63 : Nat) = 121 ∨ (63 : Nat) = 89) := by decide
  have e2 : ¬ ((63 : Nat) = 110 ∨ (63 : Nat) = 78 ∨ (63 : Nat) = 10 ∨ (63 : Nat) = 13) := by
    decide
  have s1 : ¬ (s = 121 ∨ s = 89) := by omega
  have s2 : ¬ (s = 110 ∨ s = 78 ∨ s = 10 ∨ s = 13) := by omega
  simp only [e1, e2, s1, s2, hs, if_false, if_true]
  obtain ⟨h1, h2, h3⟩ := stepByStep_accepted (Prepare fs files).1 fs answers rest hlen1 hval
  refine ⟨h1, fun hsucc => ?_, fun hfail => ?_⟩
  · have hA := Apply_of_succeed fs _ hsucc
    rw [hA] at h1 h2 h3
    simp only [if_true] at h1 h2
    have h3 := h3 rfl
    rcases hst : stepByStep fs (Prepare fs files).1 (answers ++ rest) with ⟨a, b, c⟩
    rw [hst] at h1 h2 h3
    simp only at h1 h2 h3
    rw [h1, h2, h3]
  · rw [h2]
    have : (Apply fs (accepted (Prepare fs files).1 answers)).2 ≠ none := by
      intro hnone
      rw [succeed_of_Apply_none fs _ hnone] at hfail
      exact Bool.noConfusion hfail
    simp [this]

/-- C8 at sample runs over an empty `/tmp` with the Write spec for `/tmp/a`:
the byte `x` at the first prompt, at the details prompt and at the
step-by-step prompt ends the run with status 1 and nothing written, `n`
writes nothing whatever follows, a batch that is already installed reads
nothing, and `y` does write the file. -/
theorem C8_no_write_without_confirmation_witness :
    (doInstall fsTmp [specHi] [120]).fs = fsTmp ∧
    (doInstall fsTmp [specHi] [120]).status = 1 ∧
    (doInstall fsTmp [specHi] [110, 121]).fs = fsTmp ∧
    (doInstall fsTmp [specHi] [63, 10, 121]).fs = fsTmp ∧
    ((doInstall fsOtherLine [specAppendLine] [121]).fs = fsOtherLine ∧
      (doInstall fsOtherLine [specAppendLine] [121]).unread = [121]) ∧
    readFile (doInstall fsTmp [specHi] [121]).fs ["tmp", "a"] = .ok [104, 105, 10] ∧
    (doInstall fsTmp [specHi] [63, 120]).fs = fsTmp ∧
    (doInstall fsTmp [specHi] [63, 120]).status = 1 ∧
    (doInstall fsTmp [specHi] [63, 115, 120]).fs = fsTmp ∧
    (doInstall fsTmp [specHi] [63, 115, 120]).status = 1 :=
  ⟨((C8_no_write_without_confirmation fsTmp [specHi] [120]).2.2.2.2.1 120 [] rfl
      (by decide)).1,
   ((C8_no_write_without_confirmation fsTmp [specHi] [120]).2.2.2.2.1 120 [] rfl
      (by decide)).2 (by decide) (by decide),
   (C8_no_write_without_confirmation fsTmp [specHi] [110, 121]).2.2.1 110 [121] rfl
      (by decide),
   (C8_no_write_without_confirmation fsTmp [specHi] [63, 10, 121]).2.2.2.1 10 [121] rfl
      (by decide),
   (C8_no_write_without_confirmation fsOtherLine [specAppendLine] [121]).2.1 (by decide),
   by decide,
   ((C8_no_write_without_confirmation fsTmp [specHi] [63, 120]).2.2.2.2.2.1 120 [] rfl
      (by decide)).1,
   ((C8_no_write_without_confirmation fsTmp [specHi] [63, 120]).2.2.2.2.2.1 120 [] rfl
      (by decide)).2 (by decide) (by decide),
   ((C8_no_write_without_confirmation fsTmp [specHi] [63, 115, 120]).2.2.2.2.2.2 115 [] 120 []
      rfl (by decide) (by decide) (by decide) (by decide)).1 (by decide),
   ((C8_no_write_without_confirmation fsTmp [specHi] [63, 115, 120]).2.2.2.2.2.2 115 [] 120 []
      rfl (by decide) (by decide) (by decide) (by decide)).2 (by decide) (by decide)⟩

/-- C9 at scenario 4: `?`, `s`, then `y` for the Write spec of `/tmp/a` and
`n` for the Append spec of `/tmp/c`: the first file is written, the second is
not created, the exit status is 0. -/
theorem C9_step_by_step_witness :
    (doInstall fsTmp [specHi, specAppendFresh] [63, 115, 121, 110]).status = 0 ∧
    readFile (doInstall fsTmp [specHi, specAppendFresh] [63, 115, 121, 110]).fs ["tmp", "a"]
      = .ok [104, 105, 10] ∧
    readFile (doInstall fsTmp [specHi, specAppendFresh] [63, 115, 121, 110]).fs ["tmp", "c"]
      = .error .ENOENT ∧
    doInstall fsTmp [specHi, specAppendFresh] (63 :: 115 :: ([121, 110] ++ []))
      = ⟨applyInOrder fsTmp
          (accepted (Prepare fsTmp [specHi, specAppendFresh]).1 [121, 110]), 0, []⟩ :=
  ⟨by decide, by decide, by decide,
   (C9_step_by_step fsTmp [specHi, specAppendFresh] 115 [121, 110] [] (by decide) (by decide)
     (by decide) (by decide) (by decide)).2.1 (by decide)⟩

theorem yesNoResponseTty_ok (v : Nat) : yesNoResponseTty Tty.ok v = yesNoResponse v := by
  simp [yesNoResponseTty, yesNoResponse, Tty.ok]

theorem askByteTty_ok (input : List Nat) (hint : List Char) (dflt : Nat)
    (onResponse : Nat → Option Err) :
    askByteTty Tty.ok input hint dflt onResponse = askByte input dflt onResponse := by
  cases input with
  | nil =>
    simp only [askByteTty, askByteBody, Tty.ok, askByte, ite_self]
  | cons b rest =>
    simp only [askByteTty, askByteBody, Tty.ok, askByte, ite_self]
    by_cases h : b = 10 ∨ b = 13
    · simp only [h, if_true]
    · simp only [h, if_false]

theorem askYesNoTty_ok (input : List Nat) (dflt : Bool) :
    askYesNoTty Tty.ok input dflt = askYesNo input dflt := by
  have h : yesNoResponseTty Tty.ok = yesNoResponse := funext yesNoResponseTty_ok
  simp only [askYesNoTty, askYesNo, askByteTty_ok, h]

/-- What `askYesNo` returns, by the byte read and the default. -/
theorem askYesNo_cons (b : Nat) (rest : List Nat) (dflt : Bool) :
    askYesNo (b :: rest) dflt =
      (if effectiveByte dflt b = 121 ∨ effectiveByte dflt b = 89 then some (true, none)
       else if effectiveByte dflt b = 110 ∨ effectiveByte dflt b = 78 then some (false, none)
       else some (false, some Err.ErrInvalidYesNoResponse), rest) := by
  simp only [askYesNo, askByte_cons, yesNoResponse, effectiveByte]
  by_cases h1 : b = 10 ∨ b = 13
  · cases dflt <;> simp [h1]
  · simp only [h1, if_false]
    by_cases h2 : b = 121 ∨ b = 89
    · simp [h2]
    · by_cases h3 : b = 110 ∨ b = 78
      · simp [h2, h3]
      · simp [h2, h3]

/-- A nil error from `askByte` under the handler of `askYesNo` comes with a
byte of the alphabet, whatever the terminal does. -/
theorem askByteTty_nil_error (t : Tty) (input : List Nat) (hint : List Char) (dflt : Nat)
    (h : (askByteTty t input hint dflt (yesNoResponseTty t)).1.2 = none) :
    (askByteTty t input hint dflt (yesNoResponseTty t)).1.1 = 121 ∨
    (askByteTty t input hint dflt (yesNoResponseTty t)).1.1 = 89 ∨
    (askByteTty t input hint dflt (yesNoResponseTty t)).1.1 = 110 ∨
    (askByteTty t input hint dflt (yesNoResponseTty t)).1.1 = 78 := by
  unfold askByteTty at h ⊢
  rcases hm : t.makeRaw with _ | e
  · simp only [hm] at h ⊢
    rcases hb : askByteBody t input hint dflt with ⟨⟨result, err⟩, rest⟩
    simp only [hb] at h ⊢
    rcases hr : t.restore with _ | e
    · simp only [hr] at h ⊢
      rcases ho : yesNoResponseTty t result with _ | e
      · simp only [ho] at h ⊢
        unfold yesNoResponseTty at ho
        by_cases h2 : result = 121 ∨ result = 89
        · rcases h2 with h2 | h2
          · exact Or.inl h2
          · exact Or.inr (Or.inl h2)
        · by_cases h3 : result = 110 ∨ result = 78
          · rcases h3 with h3 | h3
            · exact Or.inr (Or.inr (Or.inl h3))
            · exact Or.inr (Or.inr (Or.inr h3))
          · simp [h2, h3] at ho
      · simp [ho] at h
    · simp [hr] at h
  · simp [hm] at h

/-- `askYesNo` never reaches its `panic("unreachable")`. -/
theorem askYesNoTty_no_panic (t : Tty) (input : List Nat) (dflt : Bool) :
    (askYesNoTty t input dflt).1 ≠ none := by
  unfold askYesNoTty
  simp only
  generalize hd : (if (!dflt) = true then (110 : Nat) else 121) = d
  generalize hh : (if (!dflt) = true then " [y/N] ".toList else " [Y/n] ".toList) = hint
  have key := askByteTty_nil_error t input hint d
  rcases hq : askByteTty t input hint d (yesNoResponseTty t) with ⟨⟨b, _ | err⟩, rest⟩
  · rw [hq] at key
    have hb := key rfl
    simp only at hb
    simp only
    by_cases h2 : b = 121 ∨ b = 89
    · simp [h2]
    · have h3 : b = 110 ∨ b = 78 := by omega
      simp [h2, h3]
  · simp

/-- C11: on a terminal whose mode switches and writes succeed, `askYesNo`
with default `dflt` reading byte `b` acts on `e`, the default byte when `b`
is a line feed or carriage return and `b` otherwise: it returns `(true, nil)`
exactly when `e` is `y` or `Y`, `(false, nil)` exactly when `e` is `n` or
`N`, and the error `ErrInvalidYesNoResponse` exactly for every other `e`.
On any terminal and any input, a nil error from `askByte` under the handler of
`askYesNo` comes with a byte among `y`, `Y`, `n`, `N`, and `askYesNo` never
reaches its panic. -/
theorem C11_yes_no_prompt (t : Tty) (input rest : List Nat) (hint : List Char)
    (dflt : Bool) (d b : Nat) :
    askYesNoTty Tty.ok (b :: rest) dflt = askYesNo (b :: rest) dflt ∧
    ((askYesNoTty Tty.ok (b :: rest) dflt).1 = some (true, none) ↔
      (effectiveByte dflt b = 121 ∨ effectiveByte dflt b = 89)) ∧
    ((askYesNoTty Tty.ok (b :: rest) dflt).1 = some (false, none) ↔
      (effectiveByte dflt b = 110 ∨ effectiveByte dflt b = 78)) ∧
    ((askYesNoTty Tty.ok (b :: rest) dflt).1 = some (false, some Err.ErrInvalidYesNoResponse) ↔
      ¬ (effectiveByte dflt b = 121 ∨ effectiveByte dflt b = 89 ∨
          effectiveByte dflt b = 110 ∨ effectiveByte dflt b = 78)) ∧
    ((askByteTty t input hint d (yesNoResponseTty t)).1.2 = none →
      ((askByteTty t input hint d (yesNoResponseTty t)).1.1 = 121 ∨
        (askByteTty t input hint d (yesNoResponseTty t)).1.1 = 89 ∨
        (askByteTty t input hint d (yesNoResponseTty t)).1.1 = 110 ∨
        (askByteTty t input hint d (yesNoResponseTty t)).1.1 = 78)) ∧
    (askYesNoTty t input dflt).1 ≠ none := by
  refine ⟨askYesNoTty_ok _ _, ?_, ?_, ?_, askByteTty_nil_error t input hint d,
    askYesNoTty_no_panic t input dflt⟩
  all_goals
    rw [askYesNoTty_ok, askYesNo_cons]
    generalize effectiveByte dflt b = e
    by_cases h2 : e = 121 ∨ e = 89 <;> by_cases h3 : e = 110 ∨ e = 78 <;>
      simp [h2, h3] <;> omega

/-- C11 at sample prompts: Enter under default yes is a yes, `x` under
default no is the error and not a no, a failing write gives an error and no
panic, and the byte `Y` accepted without error is in the alphabet. -/
theorem C11_yes_no_prompt_witness :
    (askYesNoTty Tty.ok [10] true).1 = some (true, none) ∧
    (askYesNoTty Tty.ok [120] false).1 = some (false, some Err.ErrInvalidYesNoResponse) ∧
    (askYesNoTty ttyWriteFails [121] false).1 = some (false, some Err.ErrInvalidYesNoResponse) ∧
    (askYesNoTty ttyWriteFails [121] false).1 ≠ none ∧
    ((askByteTty Tty.ok [89] [] 110 (yesNoResponseTty Tty.ok)).1.1 = 121 ∨
      (askByteTty Tty.ok [89] [] 110 (yesNoResponseTty Tty.ok)).1.1 = 89 ∨
      (askByteTty Tty.ok [89] [] 110 (yesNoResponseTty Tty.ok)).1.1 = 110 ∨
      (askByteTty Tty.ok [89] [] 110 (yesNoResponseTty Tty.ok)).1.1 = 78) :=
  ⟨((C11_yes_no_prompt Tty.ok [] [] [] true 110 10).2.1).mpr (by decide),
   ((C11_yes_no_prompt Tty.ok [] [] [] false 110 120).2.2.2.1).mpr (by decide),
   by decide,
   (C11_yes_no_prompt ttyWriteFails [121] [] [] false 110 0).2.2.2.2.2,
   (C11_yes_no_prompt Tty.ok [89] [] [] false 110 0).2.2.2.2.1 (by decide)⟩

theorem visibleCount_append (a b : Text) :
    visibleCount (a ++ b) = visibleCount a + visibleCount b := by
  induction a with
  | nil => simp [visibleCount]
  | cons g t ih =>
    cases g <;> simp [visibleCount, ih, Nat.add_assoc]

theorem RuneCountInString_append (a b : Text) :
    RuneCountInString (a ++ b) = RuneCountInString a + RuneCountInString b := by
  induction a with
  | nil => simp [RuneCountInString]
  | cons g t ih =>
    cases g <;> simp [RuneCountInString, ih] <;> omega

theorem visibleCount_plain (s : List Char) : visibleCount (plain s) = s.length := by
  induction s with
  | nil => rfl
  | cons c cs ih =>
    simp only [plain, List.map_cons, visibleCount, List.length_cons] at ih ⊢
    omega

theorem RuneCountInString_plain (s : List Char) : RuneCountInString (plain s) = s.length := by
  induction s with
  | nil => rfl
  | cons c cs ih =>
    simp only [plain, List.map_cons, RuneCountInString, List.length_cons] at ih ⊢
    omega

theorem visibleCount_colorString (noColor : Bool) (code s : List Char) :
    visibleCount (colorString noColor code s) = s.length := by
  cases noColor
  · simp [colorString, visibleCount, visibleCount_append, visibleCount_plain]
  · simp [colorString, visibleCount_plain]

theorem RuneCountInString_colorString (code s : List Char) :
    RuneCountInString (colorString true code s) = s.length := by
  simp [colorString, RuneCountInString_plain]

/-- The visible characters of a summary are the runes counted with colour
switched off. -/
theorem visibleCount_Summary (f : File) (noColor : Bool) (quote : List Char → List Char) :
    visibleCount (f.Summary noColor quote) = RuneCountInString (f.Summary true quote) := by
  unfold File.Summary
  simp only
  split_ifs <;>
    simp only [visibleCount_append, RuneCountInString_append, visibleCount_colorString,
      visibleCount_plain, RuneCountInString_plain, RuneCountInString_colorString]

theorem sep_length (c : Char) (n : Nat) : (sep [c] n).length = n := by
  induction n with
  | zero => rfl
  | succ k ih => simp [sep, ih]

/-- The running maximum of a loop `if n > maxLen then maxLen = n`. -/
theorem foldl_max_spec {α : Type} (g : α → Nat) (xs : List α) (m0 : Nat) :
    m0 ≤ xs.foldl (fun m x => if g x > m then g x else m) m0 ∧
    (∀ x ∈ xs, g x ≤ xs.foldl (fun m x => if g x > m then g x else m) m0) ∧
    (xs.foldl (fun m x => if g x > m then g x else m) m0 = m0 ∨
      ∃ x ∈ xs, xs.foldl (fun m x => if g x > m then g x else m) m0 = g x) := by
  induction xs generalizing m0 with
  | nil => simp
  | cons a rest ih =>
    simp only [List.foldl_cons]
    obtain ⟨h1, h2, h3⟩ := ih (if g a > m0 then g a else m0)
    refine ⟨?_, ?_, ?_⟩
    · by_cases hg : g a > m0 <;> simp only [hg, if_true, if_false] at h1 ⊢ <;> omega
    · intro x hx
      rcases List.mem_cons.mp hx with rfl | hx
      · by_cases hg : g x > m0 <;> simp only [hg, if_true, if_false] at h1 ⊢ <;> omega
      · exact h2 x hx
    · rcases h3 with h3 | ⟨x, hx, h3⟩
      · by_cases hg : g a > m0
        · simp only [hg, if_true] at h3 ⊢
          exact Or.inr ⟨a, List.mem_cons_self _ _, h3⟩
        · simp only [hg, if_false] at h3 ⊢
          exact Or.inl h3
      · exact Or.inr ⟨x, List.mem_cons_of_mem _ hx, h3⟩

/-- What `maxLen` returns: at least the summary and every content line,
and equal to one of them. -/
theorem maxLen_spec (f : File) (quote : List Char → List Char) :
    RuneCountInString (f.Summary true quote) ≤ f.maxLen quote ∧
    (∀ line ∈ splitLines f.Content, line.length ≤ f.maxLen quote) ∧
    (f.maxLen quote = RuneCountInString (f.Summary true quote) ∨
      ∃ line ∈ splitLines f.Content, f.maxLen quote = line.length) := by
  unfold File.maxLen
  simp only
  have hm : (if RuneCountInString (f.Summary true quote) > 0
      then RuneCountInString (f.Summary true quote) else 0)
      = RuneCountInString (f.Summary true quote) := by
    split_ifs <;> omega
  rw [hm]
  obtain ⟨h1, h2, h3⟩ := foldl_max_spec (fun line => RuneCountInString (plain line))
    (splitLines f.Content) (RuneCountInString (f.Summary true quote))
  refine ⟨h1, ?_, ?_⟩
  · intro line hl
    have := h2 line hl
    simpa [RuneCountInString_plain] using this
  · rcases h3 with h3 | ⟨line, hl, h3⟩
    · exact Or.inl h3
    · exact Or.inr ⟨line, hl, by simpa [RuneCountInString_plain] using h3⟩

theorem batchMaxLen_spec (quote : List Char → List Char) (files : List File) :
    (∀ f ∈ files, f.maxLen quote ≤ batchMaxLen quote files) ∧
    (batchMaxLen quote files = 0 ∨ ∃ f ∈ files, batchMaxLen quote files = f.maxLen quote) := by
  obtain ⟨_, h2, h3⟩ := foldl_max_spec (fun f : File => f.maxLen quote) files 0
  exact ⟨h2, h3⟩

theorem visibleCount_padString (noColor : Bool) (f : Bool → Text) (n : Nat)
    (hv : visibleCount (f noColor) = RuneCountInString (f true))
    (hn : RuneCountInString (f true) ≤ n) :
    visibleCount (padString noColor f n) = n := by
  simp only [padString, visibleCount_append, visibleCount_plain, List.length_replicate, hv]
  omega

/-- Every line `printDetails` prints is `maxLen + 4` visible characters wide
when `maxLen` is at least the width of the spec. -/
theorem printDetails_width (f : File) (noColor : Bool) (quote : List Char → List Char)
    (W : Nat) (hW : f.maxLen quote ≤ W) :
    ∀ line ∈ f.printDetails noColor quote W, visibleCount line = W + 4 := by
  obtain ⟨h1, h2, _⟩ := maxLen_spec f quote
  intro line hl
  simp only [File.printDetails, List.mem_append, List.mem_cons, List.mem_singleton,
    List.not_mem_nil, or_false, List.mem_map] at hl
  rcases hl with (rfl | rfl) | ⟨l, hl, rfl⟩
  · rw [visibleCount_append, visibleCount_append,
      visibleCount_padString noColor _ W (visibleCount_Summary f noColor quote) (by omega)]
    simp [visibleCount_plain]
    omega
  · simp [visibleCount_plain, sep_length]
  · have hlen := h2 l hl
    rw [visibleCount_append, visibleCount_append,
      visibleCount_padString noColor _ W
        (by simp [visibleCount_plain, RuneCountInString_plain])
        (by rw [RuneCountInString_plain]; omega)]
    simp [visibleCount_plain]
    omega

theorem printFilesFrom_width (noColor : Bool) (quote : List Char → List Char) (W : Nat)
    (files : List File) (i : Nat) (hW : ∀ f ∈ files, f.maxLen quote ≤ W) :
    ∀ line ∈ printFilesFrom noColor quote W i files, visibleCount line = W + 4 := by
  induction files generalizing i with
  | nil => simp [printFilesFrom]
  | cons f rest ih =>
    intro line hl
    simp only [printFilesFrom, List.mem_append] at hl
    rcases hl with (hl | hl) | hl
    · split_ifs at hl
      · simp only [List.mem_singleton] at hl
        subst hl
        simp [visibleCount_plain, sep_length]
      · simp at hl
    · exact printDetails_width f noColor quote W (hW f (List.mem_cons_self _ _)) line hl
    · exact ih (i + 1) (fun g hg => hW g (List.mem_cons_of_mem _ hg)) line hl

theorem sep_singleton (c : Char) (n : Nat) : sep [c] n = List.replicate n c := by
  induction n with
  | zero => rfl
  | succ k ih => simp [sep, ih, List.replicate_succ]

theorem printFilesFrom_succ (noColor : Bool) (quote : List Char → List Char) (W : Nat)
    (i : Nat) (files : List File) :
    printFilesFrom noColor quote W (i + 1) files =
      (files.map (fun f => plain ("╠".toList ++ sep "═".toList (W + 2) ++ "╣".toList) ::
        f.printDetails noColor quote W)).flatten := by
  induction files generalizing i with
  | nil => rfl
  | cons f rest ih =>
    simp only [printFilesFrom, ih, List.map_cons, List.flatten_cons]
    simp

/-- The second loop of `install.PrintDetails` prints the blocks of the specs
in order, one separator line between two blocks. -/
theorem printFilesFrom_zero (noColor : Bool) (quote : List Char → List Char) (W : Nat)
    (files : List File) :
    printFilesFrom noColor quote W 0 files =
      List.intercalate [plain ("╠".toList ++ sep "═".toList (W + 2) ++ "╣".toList)]
        (files.map (fun f => f.printDetails noColor quote W)) := by
  cases files with
  | nil => rfl
  | cons f rest =>
    simp only [printFilesFrom, printFilesFrom_succ]
    induction rest generalizing f with
    | nil => simp [List.intercalate]
    | cons g rest ih =>
      have := ih g
      simp only [List.intercalate, List.map_cons, List.intersperse, List.flatten_cons,
        List.map_nil] at this ⊢
      simp at this ⊢
      rw [← this]

/-- The block of a spec, spelled out: the summary and every content line
appear whole, followed by the padding. -/
theorem printDetails_eq (f : File) (noColor : Bool) (quote : List Char → List Char) (W : Nat) :
    f.printDetails noColor quote W =
      [plain "║ ".toList ++
          (f.Summary noColor quote ++
            plain (List.replicate (W - visibleCount (f.Summary noColor quote)) ' ')) ++
          plain " ║".toList,
        plain ("╟".toList ++ List.replicate (W + 2) '┄' ++ "╢".toList)] ++
      (splitLines f.Content).map (fun line =>
        plain "║ ".toList ++ (plain line ++ plain (List.replicate (W - line.length) ' ')) ++
          plain " ║".toList) := by
  simp only [File.printDetails, padString, visibleCount_Summary, RuneCountInString_plain]
  rw [show "┄".toList = ['┄'] from rfl, sep_singleton]

/-- C12: for a non-empty batch, `install.PrintDetails` works with the width
`W` that bounds the visible length of every summary and the length of every
content line and is attained by one of them; every line it prints has
`W + 4` visible characters; the output is the top border, the blocks of the
specs in the supplied order with one separator line between two blocks, and
the bottom border; and each block holds the summary and every content line
whole, followed by padding. -/
theorem C12_boxed_preview_alignment (noColor : Bool) (quote : List Char → List Char)
    (files : List File) (hne : files ≠ []) :
    (∀ f ∈ files, visibleCount (f.Summary noColor quote) ≤ batchMaxLen quote files ∧
      ∀ line ∈ splitLines f.Content, line.length ≤ batchMaxLen quote files) ∧
    ((∃ f ∈ files, batchMaxLen quote files = visibleCount (f.Summary noColor quote)) ∨
      (∃ f ∈ files, ∃ line ∈ splitLines f.Content, batchMaxLen quote files = line.length)) ∧
    (∀ line ∈ PrintDetails noColor quote files,
      visibleCount line = batchMaxLen quote files + 4) ∧
    PrintDetails noColor quote files =
      [plain ("╔".toList ++ List.replicate (batchMaxLen quote files + 2) '═' ++ "╗".toList)] ++
        List.intercalate
          [plain ("╠".toList ++ List.replicate (batchMaxLen quote files + 2) '═' ++ "╣".toList)]
          (files.map (fun f => f.printDetails noColor quote (batchMaxLen quote files))) ++
        [plain ("╚".toList ++ List.replicate (batchMaxLen quote files + 2) '═' ++ "╝".toList)] ∧
    (∀ f ∈ files, f.printDetails noColor quote (batchMaxLen quote files) =
      [plain "║ ".toList ++
          (f.Summary noColor quote ++
            plain (List.replicate
              (batchMaxLen quote files - visibleCount (f.Summary noColor quote)) ' ')) ++
          plain " ║".toList,
        plain ("╟".toList ++ List.replicate (batchMaxLen quote files + 2) '┄' ++ "╢".toList)] ++
      (splitLines f.Content).map (fun line =>
        plain "║ ".toList ++
          (plain line ++ plain (List.replicate (batchMaxLen quote files - line.length) ' ')) ++
          plain " ║".toList)) := by
  obtain ⟨hb1, hb2⟩ := batchMaxLen_spec quote files
  refine ⟨?_, ?_, ?_, ?_, fun f _ => printDetails_eq f noColor quote _⟩
  · intro f hf
    obtain ⟨h1, h2, _⟩ := maxLen_spec f quote
    have := hb1 f hf
    refine ⟨by rw [visibleCount_Summary]; omega, fun line hl => ?_⟩
    have := h2 line hl
    omega
  · have hatt : ∃ f ∈ files, batchMaxLen quote files = f.maxLen quote := by
      rcases hb2 with h0 | h
      · obtain ⟨f, rest, rfl⟩ := List.exists_cons_of_ne_nil hne
        have := hb1 f (List.mem_cons_self _ _)
        exact ⟨f, List.mem_cons_self _ _, by omega⟩
      · exact h
    obtain ⟨f, hf, hW⟩ := hatt
    obtain ⟨_, _, h3⟩ := maxLen_spec f quote
    rcases h3 with h3 | ⟨line, hl, h3⟩
    · exact Or.inl ⟨f, hf, by rw [visibleCount_Summary, hW, h3]⟩
    · exact Or.inr ⟨f, hf, line, hl, by rw [hW, h3]⟩
  · intro line hl
    simp only [PrintDetails, List.mem_append, List.mem_singleton] at hl
    rcases hl with (hl | hl) | hl
    · subst hl
      simp [visibleCount_plain, sep_length]
    · exact printFilesFrom_width noColor quote _ files 0 hb1 line hl
    · subst hl
      simp [visibleCount_plain, sep_length]
  · simp only [PrintDetails, printFilesFrom_zero]
    rw [show "═".toList = ['═'] from rfl, sep_singleton]

/-- C12 at the sample batch with colour on: the width is 19, the nine lines
printed are 23 visible characters wide and read as shown. -/
theorem C12_boxed_preview_alignment_witness :
    batchMaxLen quoteSample sampleBatch = 19 ∧
    (PrintDetails false quoteSample sampleBatch).map visibleText =
      ["╔═════════════════════╗".toList,
       "║ Create: \"/tmp/a\"    ║".toList,
       "╟┄┄┄┄┄┄┄┄┄┄┄┄┄┄┄┄┄┄┄┄┄╢".toList,
       "║ hi                  ║".toList,
       "╠═════════════════════╣".toList,
       "║ Append to: \"/tmp/b\" ║".toList,
       "╟┄┄┄┄┄┄┄┄┄┄┄┄┄┄┄┄┄┄┄┄┄╢".toList,
       "║ bind                ║".toList,
       "╚═════════════════════╝".toList] ∧
    (∀ line ∈ PrintDetails false quoteSample sampleBatch,
      visibleCount line = batchMaxLen quoteSample sampleBatch + 4) :=
  ⟨by decide, by decide,
   (C12_boxed_preview_alignment false quoteSample sampleBatch (by simp [sampleBatch])).2.2.1⟩

end Changedir
